import Mathlib

/-!
Verification of `datatree/mapping.py`: tree isomorphism checking
(`check_isomorphic`, `diff_treestructure`) and the multi-tree map combinator
(`map_over_subtree` / `_map_over_subtree`, `_check_single_set_return_values`,
`_check_all_return_values`).

The tree node type itself (`TreeNode` / `DataTree`), its traversal iterators
and `DataTree.from_dict` are external collaborators of this module; they are
modelled from the specification (each such definition carries a
`Modelled from the spec:` doc comment).  Everything else is a direct
translation of the source of `mapping.py`.

Modelling conventions:
* payloads ("datasets") are opaque and modelled as `Nat`;
* a node path is its list of name segments below the traversal root
  (`[]` is the root, rendered `"/"` by `renderPath`);
* Python exceptions become the `MapErr` sum type; fallible functions return
  `Except MapErr _`;
* Python dicts are association lists in insertion order, with
  `dictSet` reproducing dict assignment (update in place or append).
-/

set_option maxHeartbeats 1600000

namespace DatatreeMapping

/-- A node path: the ordered list of node names from the traversal root down
to the node, excluding the root's own name.  `[]` is the root itself. -/
abbrev NPath := List String

/-- Modelled from the spec: the external tree node type (`TreeNode`/`DataTree`,
not part of `mapping.py`).  A node has a name, an optional payload (a node
with no payload is "empty") and an ordered list of children. -/
inductive DataTree where
  | node (name : String) (ds : Option Nat) (children : List DataTree)

namespace DataTree

def name : DataTree → String
  | .node n _ _ => n

def ds : DataTree → Option Nat
  | .node _ d _ => d

def children : DataTree → List DataTree
  | .node _ _ cs => cs

/-- Modelled from the spec: `node.is_empty` — the node holds no payload. -/
def is_empty (t : DataTree) : Bool := t.ds.isNone

@[simp] theorem name_node (n d cs) : (DataTree.node n d cs).name = n := rfl

@[simp] theorem ds_node (n d cs) : (DataTree.node n d cs).ds = d := rfl

@[simp] theorem children_node (n d cs) : (DataTree.node n d cs).children = cs := rfl

end DataTree

theorem dt_sizeOf_pos (t : DataTree) : 1 ≤ sizeOf t := by
  cases t with
  | node n d cs => simp; omega

/-- Strong induction for `DataTree` (its children list is a nested
occurrence, so we derive the membership-based induction principle by hand). -/
theorem dt_ind (P : DataTree → Prop)
    (h : ∀ n d cs, (∀ c ∈ cs, P c) → P (DataTree.node n d cs)) : ∀ t, P t := by
  have key : ∀ k t, sizeOf t ≤ k → P t := by
    intro k
    induction k with
    | zero =>
      intro t ht
      exact absurd ht (by have := dt_sizeOf_pos t; omega)
    | succ k ih =>
      intro t ht
      cases t with
      | node n d cs =>
        refine h n d cs (fun c hc => ih c ?_)
        have h1 : sizeOf c < sizeOf cs := List.sizeOf_lt_of_mem hc
        have h2 : sizeOf (DataTree.node n d cs) = 1 + sizeOf n + sizeOf d + sizeOf cs := by
          simp
        omega
  exact fun t => key (sizeOf t) t le_rfl

mutual

/-- Total number of nodes of a tree. -/
def countNodes : DataTree → Nat
  | .node _ _ cs => 1 + countNodesL cs

/-- Total number of nodes of a forest. -/
def countNodesL : List DataTree → Nat
  | [] => 0
  | c :: rest => countNodes c + countNodesL rest

end

@[simp] theorem countNodes_node (n d cs) :
    countNodes (DataTree.node n d cs) = 1 + countNodesL cs := by
  rw [countNodes]

@[simp] theorem countNodesL_nil : countNodesL [] = 0 := by
  rw [countNodesL]

@[simp] theorem countNodesL_cons (c rest) :
    countNodesL (c :: rest) = countNodes c + countNodesL rest := by
  rw [countNodesL]

theorem countNodes_pos (t : DataTree) : 1 ≤ countNodes t := by
  cases t with
  | node n d cs => simp

mutual

/-- Modelled from the spec: `traverse_preorder` / the `DataTree.subtree`
iterator — the root-first depth-first traversal of the subtree hanging at a
node, materialised as a list of (path, node) pairs.  `base` is the path of
the subtree root, so every listed path extends `base`. -/
def preorderT (base : NPath) : DataTree → List (NPath × DataTree)
  | .node n d cs => (base, .node n d cs) :: preorderL base cs

/-- Preorder traversal of a forest of siblings sitting below path `base`. -/
def preorderL (base : NPath) : List DataTree → List (NPath × DataTree)
  | [] => []
  | c :: rest => preorderT (base ++ [c.name]) c ++ preorderL base rest

end

@[simp] theorem preorderT_node (base n d cs) :
    preorderT base (DataTree.node n d cs) =
      (base, DataTree.node n d cs) :: preorderL base cs := by
  rw [preorderT]

@[simp] theorem preorderL_nil (base) : preorderL base [] = [] := by
  rw [preorderL]

@[simp] theorem preorderL_cons (base c rest) :
    preorderL base (c :: rest) =
      preorderT (base ++ [c.name]) c ++ preorderL base rest := by
  rw [preorderL]

/-- Total number of nodes of the trees held in a breadth-first queue (the
termination measure for the queue-based traversal). -/
def qsize (q : List (NPath × DataTree)) : Nat := (q.map (fun pr => countNodes pr.2)).sum

@[simp] theorem qsize_nil : qsize [] = 0 := rfl

@[simp] theorem qsize_cons (x q) : qsize (x :: q) = countNodes x.2 + qsize q := by
  simp [qsize]

@[simp] theorem qsize_append (q r) : qsize (q ++ r) = qsize q + qsize r := by
  simp [qsize]

theorem qsize_map_children (p : NPath) (cs : List DataTree) :
    qsize (cs.map (fun c => (p ++ [c.name], c))) = countNodesL cs := by
  induction cs with
  | nil => simp
  | cons c rest ih => simp [ih]

theorem qsize_children_lt (p : NPath) (t : DataTree) :
    qsize (t.children.map (fun c => (p ++ [c.name], c))) < countNodes t := by
  cases t with
  | node n d cs => simp [qsize_map_children]

/-- Modelled from the spec: `LevelOrderIter` — breadth-first (level-order)
traversal, root first, realised with an explicit FIFO queue of (path, node)
pairs. -/
def levelOrderAux : List (NPath × DataTree) → List (NPath × DataTree)
  | [] => []
  | (p, t) :: rest =>
      (p, t) :: levelOrderAux (rest ++ t.children.map (fun c => (p ++ [c.name], c)))
termination_by q => qsize q
decreasing_by
  simp only [qsize_cons, qsize_append]
  have := qsize_children_lt p t
  omega

@[simp] theorem levelOrderAux_nil : levelOrderAux [] = [] := by
  rw [levelOrderAux]

@[simp] theorem levelOrderAux_cons (p t rest) :
    levelOrderAux ((p, t) :: rest) =
      (p, t) :: levelOrderAux (rest ++ t.children.map (fun c => (p ++ [c.name], c))) := by
  rw [levelOrderAux]

/-- Render a path the way `node.path` renders it: `"/"` for the root,
`"/a/b"` below it. -/
def renderPath (p : NPath) : String := "/" ++ String.intercalate "/" p

/-- The two-line message `diff_treestructure` produces for a name mismatch. -/
def nameDiffMsg (pathA nameA pathB nameB : String) : String :=
  "Node \x27" ++ pathA ++ "\x27 in the left object has name \x27" ++ nameA ++ "\x27\n" ++
  "Node \x27" ++ pathB ++ "\x27 in the right object has name \x27" ++ nameB ++ "\x27"

/-- The two-line message `diff_treestructure` produces for a child-count
mismatch. -/
def childDiffMsg (pathA : String) (countA : Nat) (pathB : String) (countB : Nat) : String :=
  "Number of children on node \x27" ++ pathA ++ "\x27 of the left object: " ++ toString countA ++ "\n" ++
  "Number of children on node \x27" ++ pathB ++ "\x27 of the right object: " ++ toString countB

/-- The body of `diff_treestructure`'s loop over the zipped level-order
traversals: report the first mismatch, or `""` when none. -/
def diffPairs (rn : Bool) : List ((NPath × DataTree) × (NPath × DataTree)) → String
  | [] => ""
  | (a, b) :: rest =>
    if rn = true ∧ a.2.name ≠ b.2.name then
      nameDiffMsg (renderPath a.1) a.2.name (renderPath b.1) b.2.name
    else if a.2.children.length ≠ b.2.children.length then
      childDiffMsg (renderPath a.1) a.2.children.length (renderPath b.1) b.2.children.length
    else diffPairs rn rest

@[simp] theorem diffPairs_nil (rn : Bool) : diffPairs rn [] = "" := rfl

theorem diffPairs_cons (rn : Bool) (a b : NPath × DataTree) (rest) :
    diffPairs rn ((a, b) :: rest) =
      if rn = true ∧ a.2.name ≠ b.2.name then
        nameDiffMsg (renderPath a.1) a.2.name (renderPath b.1) b.2.name
      else if a.2.children.length ≠ b.2.children.length then
        childDiffMsg (renderPath a.1) a.2.children.length (renderPath b.1) b.2.children.length
      else diffPairs rn rest := rfl

/-- `diff_treestructure(a, b, require_names_equal)`: walk both trees in
level order simultaneously (the zip stops at the shorter sequence) and
return a human-readable summary of the first mismatch, or `""` when none.
`pa`, `pb` are the paths of the two starting nodes (they only feed the
messages). -/
def diff_treestructure (pa : NPath) (a : DataTree) (pb : NPath) (b : DataTree)
    (rn : Bool) : String :=
  diffPairs rn ((levelOrderAux [(pa, a)]).zip (levelOrderAux [(pb, b)]))

/-- Structural isomorphism of ordered trees: same child count at every
corresponding position, and (when `rn`) the same name. -/
inductive Iso (rn : Bool) : DataTree → DataTree → Prop where
  | node {na nb : String} {da db : Option Nat} {ca cb : List DataTree}
      (hname : rn = true → na = nb)
      (hch : List.Forall₂ (Iso rn) ca cb) :
      Iso rn (.node na da ca) (.node nb db cb)

theorem nameDiffMsg_ne_empty (a b c d : String) : nameDiffMsg a b c d ≠ "" := by
  intro h
  have hd := congrArg String.data h
  simp only [nameDiffMsg, String.data_append, List.cons_append] at hd
  simp at hd

theorem childDiffMsg_ne_empty (a : String) (ca : Nat) (b : String) (cb : Nat) :
    childDiffMsg a ca b cb ≠ "" := by
  intro h
  have hd := congrArg String.data h
  simp only [childDiffMsg, String.data_append, List.cons_append] at hd
  simp at hd

theorem nameDiffMsg_ne_childDiffMsg (a b c d : String) (p : String) (cp : Nat)
    (q : String) (cq : Nat) : nameDiffMsg a b c d ≠ childDiffMsg p cp q cq := by
  intro h
  have hd := congrArg String.data h
  simp only [nameDiffMsg, childDiffMsg, String.data_append, List.cons_append] at hd
  injection hd with h1 hd2
  injection hd2 with h2 hd3
  exact absurd h2 (by decide)

/-- Lift `Iso` on two forests of siblings to the paired-queue relation used in
the breadth-first traversal. -/
theorem forall2_queue_of_children (rn : Bool) (p q : NPath) {ca cb : List DataTree}
    (h : List.Forall₂ (Iso rn) ca cb) :
    List.Forall₂ (fun x y : NPath × DataTree => Iso rn x.2 y.2)
      (ca.map (fun c => (p ++ [c.name], c))) (cb.map (fun c => (q ++ [c.name], c))) := by
  induction h with
  | nil => exact List.Forall₂.nil
  | @cons a b l1 l2 h1 h2 ih =>
    simp only [List.map_cons]
    exact List.Forall₂.cons h1 ih

theorem forall2_children_of_queue {rn : Bool} {p q : NPath} {ca cb : List DataTree}
    (h : List.Forall₂ (fun x y : NPath × DataTree => Iso rn x.2 y.2)
      (ca.map (fun c => (p ++ [c.name], c))) (cb.map (fun c => (q ++ [c.name], c)))) :
    List.Forall₂ (Iso rn) ca cb := by
  rw [List.forall₂_map_left_iff, List.forall₂_map_right_iff] at h
  exact h

theorem forall2_append_split {α β : Type} (R : α → β → Prop) :
    ∀ (l1 : List α) (m1 : List β) (l2 : List α) (m2 : List β),
      l1.length = m1.length →
      List.Forall₂ R (l1 ++ l2) (m1 ++ m2) →
      List.Forall₂ R l1 m1 ∧ List.Forall₂ R l2 m2 := by
  intro l1
  induction l1 with
  | nil =>
    intro m1 l2 m2 hlen h
    cases m1 with
    | nil => exact ⟨List.Forall₂.nil, by simpa using h⟩
    | cons b m1' => simp at hlen
  | cons a l1' ih =>
    intro m1 l2 m2 hlen h
    cases m1 with
    | nil => simp at hlen
    | cons b m1' =>
      simp only [List.cons_append] at h
      cases h with
      | cons hab hrest =>
        obtain ⟨x, y⟩ := ih m1' l2 m2 (by simpa using hlen) hrest
        exact ⟨List.Forall₂.cons hab x, y⟩

/-- Soundness half: pairwise-isomorphic queues give an empty diff. -/
theorem diffPairs_empty_of_forall2 (rn : Bool) :
    ∀ k (qa qb : List (NPath × DataTree)), qsize qa ≤ k →
      List.Forall₂ (fun x y : NPath × DataTree => Iso rn x.2 y.2) qa qb →
      diffPairs rn ((levelOrderAux qa).zip (levelOrderAux qb)) = "" := by
  intro k
  induction k with
  | zero =>
    intro qa qb hq h
    cases h with
    | nil => simp [diffPairs]
    | @cons x y l1 l2 hxy hrest =>
      exfalso
      have := countNodes_pos x.2
      simp only [qsize_cons] at hq
      omega
  | succ k ih =>
    intro qa qb hq h
    cases h with
    | nil => simp [diffPairs]
    | @cons x y qa' qb' hxy hrest =>
      obtain ⟨p, t⟩ := x
      obtain ⟨p', t'⟩ := y
      cases t with
      | node na da ca =>
        cases t' with
        | node nb db cb =>
          cases hxy with
          | node hname hch =>
            rw [levelOrderAux_cons, levelOrderAux_cons, List.zip_cons_cons]
            have hlen : ca.length = cb.length := hch.length_eq
            have hc1 : ¬(rn = true ∧ na ≠ nb) := by
              rintro ⟨hrn, hne⟩
              exact hne (hname hrn)
            have hc2 : ¬(ca.length ≠ cb.length) := fun hne => hne hlen
            have hq' : qsize (qa' ++ ca.map (fun c => (p ++ [c.name], c))) ≤ k := by
              have h1 : qsize (ca.map (fun c => (p ++ [c.name], c))) = countNodesL ca :=
                qsize_map_children p ca
              simp only [qsize_cons, qsize_append, countNodes_node] at hq ⊢
              omega
            have hrec := ih (qa' ++ ca.map (fun c => (p ++ [c.name], c)))
              (qb' ++ cb.map (fun c => (p' ++ [c.name], c))) hq'
              (List.rel_append hrest (forall2_queue_of_children rn p p' hch))
            rw [diffPairs_cons]
            dsimp only [DataTree.name_node, DataTree.children_node]
            rw [if_neg hc1, if_neg hc2]
            exact hrec

/-- Completeness half: an empty diff on equal-length queues forces pairwise
isomorphism. -/
theorem forall2_of_diffPairs_empty (rn : Bool) :
    ∀ k (qa qb : List (NPath × DataTree)), qsize qa ≤ k → qa.length = qb.length →
      diffPairs rn ((levelOrderAux qa).zip (levelOrderAux qb)) = "" →
      List.Forall₂ (fun x y : NPath × DataTree => Iso rn x.2 y.2) qa qb := by
  intro k
  induction k with
  | zero =>
    intro qa qb hq hlen hdiff
    cases qa with
    | nil =>
      cases qb with
      | nil => exact List.Forall₂.nil
      | cons y qb' => simp at hlen
    | cons x qa' =>
      exfalso
      have := countNodes_pos x.2
      simp only [qsize_cons] at hq
      omega
  | succ k ih =>
    intro qa qb hq hlen hdiff
    cases qa with
    | nil =>
      cases qb with
      | nil => exact List.Forall₂.nil
      | cons y qb' => simp at hlen
    | cons x qa' =>
      cases qb with
      | nil => simp at hlen
      | cons y qb' =>
        obtain ⟨p, t⟩ := x
        obtain ⟨p', t'⟩ := y
        cases t with
        | node na da ca =>
          cases t' with
          | node nb db cb =>
            rw [levelOrderAux_cons, levelOrderAux_cons, List.zip_cons_cons,
              diffPairs_cons] at hdiff
            dsimp only [DataTree.name_node, DataTree.children_node] at hdiff
            by_cases h1 : rn = true ∧ na ≠ nb
            · rw [if_pos h1] at hdiff
              exact absurd hdiff (nameDiffMsg_ne_empty _ _ _ _)
            · rw [if_neg h1] at hdiff
              by_cases h2 : ca.length = cb.length
              swap
              · rw [if_pos h2] at hdiff
                exact absurd hdiff (childDiffMsg_ne_empty _ _ _ _)
              · have h2' : ¬(ca.length ≠ cb.length) := fun hne => hne h2
                rw [if_neg h2'] at hdiff
                have hdiff' :
                    diffPairs rn
                      ((levelOrderAux (qa' ++ ca.map (fun c => (p ++ [c.name], c)))).zip
                        (levelOrderAux (qb' ++ cb.map (fun c => (p' ++ [c.name], c))))) = "" := by
                  simpa using hdiff
                have hq' : qsize (qa' ++ ca.map (fun c => (p ++ [c.name], c))) ≤ k := by
                  have hc1 : qsize (ca.map (fun c => (p ++ [c.name], c))) = countNodesL ca :=
                    qsize_map_children p ca
                  simp only [qsize_cons, qsize_append, countNodes_node] at hq ⊢
                  omega
                have hlen' : (qa' ++ ca.map (fun c => (p ++ [c.name], c))).length
                    = (qb' ++ cb.map (fun c => (p' ++ [c.name], c))).length := by
                  simp at hlen ⊢
                  omega
                have hrec := ih _ _ hq' hlen' hdiff'
                obtain ⟨hf1, hf2⟩ := forall2_append_split _ qa' qb' _ _ (by simpa using hlen) hrec
                refine List.Forall₂.cons ?_ hf1
                exact Iso.node (fun hrn => by_contra (fun hne => h1 ⟨hrn, hne⟩))
                  (forall2_children_of_queue hf2)

/-- `diff_treestructure` returns the empty string exactly on structurally
isomorphic trees. -/
theorem diff_empty_iff_iso (pa : NPath) (a : DataTree) (pb : NPath) (b : DataTree)
    (rn : Bool) : diff_treestructure pa a pb b rn = "" ↔ Iso rn a b := by
  constructor
  · intro h
    have hf := forall2_of_diffPairs_empty rn (qsize [(pa, a)]) [(pa, a)] [(pb, b)]
      le_rfl rfl h
    cases hf with
    | cons hxy _ => exact hxy
  · intro h
    exact diffPairs_empty_of_forall2 rn (qsize [(pa, a)]) [(pa, a)] [(pb, b)] le_rfl
      (List.Forall₂.cons h List.Forall₂.nil)

/-- Isomorphism is reflexive. -/
theorem iso_refl (rn : Bool) : ∀ t, Iso rn t t := by
  refine dt_ind _ ?_
  intro n d cs ih
  exact Iso.node (fun _ => rfl) (List.forall₂_same.2 ih)

theorem forall2_trans_mem {α : Type} {R : α → α → Prop} :
    ∀ {ca cb cc : List α},
      (∀ a ∈ ca, ∀ b c, R a b → R b c → R a c) →
      List.Forall₂ R ca cb → List.Forall₂ R cb cc → List.Forall₂ R ca cc := by
  intro ca cb cc hmem h1 h2
  induction h1 generalizing cc with
  | nil => cases h2; exact List.Forall₂.nil
  | @cons a b l1 l2 hab hrest ih =>
    cases h2 with
    | cons hbc hrest2 =>
      exact List.Forall₂.cons (hmem a (by simp) _ _ hab hbc)
        (ih (fun x hx => hmem x (by simp [hx])) hrest2)

/-- Isomorphism is transitive. -/
theorem iso_trans (rn : Bool) : ∀ a b c, Iso rn a b → Iso rn b c → Iso rn a c := by
  refine dt_ind (fun a => ∀ b c, Iso rn a b → Iso rn b c → Iso rn a c) ?_
  intro n d cs ih b c h1 h2
  cases b with
  | node nb db cb =>
    cases c with
    | node nc dc cc =>
      cases h1 with
      | node hn1 hc1 =>
        cases h2 with
        | node hn2 hc2 =>
          exact Iso.node (fun hrn => (hn1 hrn).trans (hn2 hrn))
            (forall2_trans_mem ih hc1 hc2)

theorem countNodesL_eq_of_forall2 {rn : Bool} :
    ∀ {ca cb : List DataTree},
      (∀ a ∈ ca, ∀ b, Iso rn a b → countNodes a = countNodes b) →
      List.Forall₂ (Iso rn) ca cb → countNodesL ca = countNodesL cb := by
  intro ca cb hmem h
  induction h with
  | nil => rfl
  | @cons a b l1 l2 hab hrest ih =>
    simp only [countNodesL_cons]
    rw [hmem a (by simp) b hab, ih (fun x hx b hb => hmem x (by simp [hx]) b hb)]

/-- Isomorphic trees have the same total node count. -/
theorem iso_countNodes {rn : Bool} : ∀ a b, Iso rn a b → countNodes a = countNodes b := by
  refine dt_ind (fun a => ∀ b, Iso rn a b → countNodes a = countNodes b) ?_
  intro n d cs ih b h
  cases b with
  | node nb db cb =>
    cases h with
    | node hn hc =>
      simp only [countNodes_node]
      rw [countNodesL_eq_of_forall2 ih hc]

/-- The exceptions `mapping.py` raises, as a structured sum: `TypeError` for a
non-tree argument of `check_isomorphic`, `TreeIsomorphismError`, the
`TypeError`s of the mapper ("Must pass at least one tree object", the
all-`None` failure, the malformed-return-value failures and the
arity-mismatch failure).  Each carries the path/arity context its Python
message interpolates. -/
inductive MapErr where
  | typeMismatch
  | notIsomorphic (diff : String)
  | noTreeInputs
  | allNoneResult
  | badReturnType (path : NPath)
  | badTupleElement (path : NPath)
  | arityMismatch (path : NPath) (num : Nat) (prevPath : NPath) (prevNum : Nat)
deriving DecidableEq, Repr

/-- Modelled from the spec: navigate from a tree root along a child-index
position to the node sitting there (`none` when the position is invalid).
A (root, position) pair plays the role of a `TreeNode` handle, giving the
root/ancestor navigation the spec's tree capability requires. -/
def subtreeAt? : DataTree → List Nat → Option DataTree
  | t, [] => some t
  | t, i :: rest =>
    match t.children[i]? with
    | some c => subtreeAt? c rest
    | Option.none => Option.none

/-- Modelled from the spec: the path of the node at a child-index position —
the names from the root down to it (the root's own name is not part of a
path).  Only used under a `subtreeAt?` validity guard. -/
def pathAt : DataTree → List Nat → NPath
  | _, [] => []
  | t, i :: rest =>
    match t.children[i]? with
    | some c => c.name :: pathAt c rest
    | Option.none => []

/-- The body of `check_isomorphic` once both arguments are known to be trees:
compute `diff_treestructure` and raise `TreeIsomorphismError` wrapping the
diff when it is nonempty. -/
def check_isomorphic_sub (pa : NPath) (a : DataTree) (pb : NPath) (b : DataTree)
    (rn : Bool) : Except MapErr Unit :=
  let diff := diff_treestructure pa a pb b rn
  if diff = "" then Except.ok ()
  else Except.error (MapErr.notIsomorphic ("DataTree objects are not isomorphic:\n" ++ diff))

/-- `check_isomorphic(a, b, require_names_equal, check_from_root)`.  The two
nodes are handles (root tree, child-index position); `check_from_root` first
replaces each by its root ancestor.  The `typeMismatch` arm mirrors the
source's `TypeError` for a non-tree argument: an invalid handle is the only
way this embedding can present a non-node, and it cannot occur for handles
obtained from real trees. -/
def check_isomorphic (aRoot : DataTree) (aPos : List Nat) (bRoot : DataTree)
    (bPos : List Nat) (rn cfr : Bool) : Except MapErr Unit :=
  match subtreeAt? aRoot (if cfr then [] else aPos),
      subtreeAt? bRoot (if cfr then [] else bPos) with
  | some a, some b =>
      check_isomorphic_sub (pathAt aRoot (if cfr then [] else aPos)) a
        (pathAt bRoot (if cfr then [] else bPos)) b rn
  | _, _ => Except.error MapErr.typeMismatch

theorem check_isomorphic_sub_ok_iff (pa : NPath) (a : DataTree) (pb : NPath)
    (b : DataTree) (rn : Bool) :
    check_isomorphic_sub pa a pb b rn = Except.ok () ↔ Iso rn a b := by
  rw [← diff_empty_iff_iso pa a pb b rn]
  unfold check_isomorphic_sub
  by_cases h : diff_treestructure pa a pb b rn = ""
  · simp [h]
  · simp [h]

/-- Claim C6: for every tree `A` (any valid node handle into it),
`check_isomorphic(A, A)` never fails, under any setting of
`require_names_equal` and `check_from_root` — isomorphism is reflexive. -/
theorem C6_check_isomorphic_refl (root : DataTree) (pos : List Nat) (rn cfr : Bool)
    (hvalid : (subtreeAt? root pos).isSome = true) :
    check_isomorphic root pos root pos rn cfr = Except.ok () := by
  unfold check_isomorphic
  cases cfr with
  | true =>
    simp only [if_true]
    have hr : subtreeAt? root [] = some root := rfl
    rw [hr]
    exact (check_isomorphic_sub_ok_iff _ _ _ _ _).mpr (iso_refl rn root)
  | false =>
    simp only [Bool.false_eq_true, if_false]
    obtain ⟨t, ht⟩ := Option.isSome_iff_exists.mp hvalid
    rw [ht]
    exact (check_isomorphic_sub_ok_iff _ _ _ _ _).mpr (iso_refl rn t)

/-- Witness for C6 at a concrete tree, position, and settings. -/
theorem C6_check_isomorphic_refl_witness :
    check_isomorphic (DataTree.node "r" (Option.none) [DataTree.node "a" (some 1) []])
      [0] (DataTree.node "r" (Option.none) [DataTree.node "a" (some 1) []]) [0]
      true false = Except.ok () :=
  C6_check_isomorphic_refl _ [0] true false (by decide)

/-- Claim C7: `check_isomorphic` is transitive — if `A ≅ B` and `B ≅ C` both
succeed with the same `require_names_equal` and `check_from_root` settings,
then `A ≅ C` succeeds; this is the fact the mapper relies on when it checks
only first-vs-rest among its tree arguments. -/
theorem C7_check_isomorphic_trans (aR : DataTree) (aP : List Nat) (bR : DataTree)
    (bP : List Nat) (cR : DataTree) (cP : List Nat) (rn cfr : Bool)
    (h1 : check_isomorphic aR aP bR bP rn cfr = Except.ok ())
    (h2 : check_isomorphic bR bP cR cP rn cfr = Except.ok ()) :
    check_isomorphic aR aP cR cP rn cfr = Except.ok () := by
  unfold check_isomorphic at h1 h2 ⊢
  cases ha : subtreeAt? aR (if cfr then [] else aP) with
  | none => rw [ha] at h1; cases subtreeAt? bR (if cfr then [] else bP) <;> simp at h1
  | some a =>
    cases hb : subtreeAt? bR (if cfr then [] else bP) with
    | none => rw [ha, hb] at h1; simp at h1
    | some b =>
      cases hc : subtreeAt? cR (if cfr then [] else cP) with
      | none => rw [hb, hc] at h2; simp at h2
      | some c =>
        rw [ha, hb] at h1
        rw [hb, hc] at h2
        dsimp only at h1 h2 ⊢
        have i1 := (check_isomorphic_sub_ok_iff _ _ _ _ _).mp h1
        have i2 := (check_isomorphic_sub_ok_iff _ _ _ _ _).mp h2
        exact (check_isomorphic_sub_ok_iff _ _ _ _ _).mpr (iso_trans rn a b c i1 i2)

/-- Witness for C7 at three concrete two-node trees with matching shapes. -/
theorem C7_check_isomorphic_trans_witness :
    check_isomorphic (DataTree.node "a" (Option.none) [DataTree.node "x" (some 1) []]) []
      (DataTree.node "c" (some 5) [DataTree.node "z" (Option.none) []]) []
      false true = Except.ok () :=
  C7_check_isomorphic_trans _ [] (DataTree.node "b" (some 2) [DataTree.node "y" (some 3) []])
    [] _ [] false true
    (by simp [check_isomorphic, check_isomorphic_sub, diff_treestructure, subtreeAt?, diffPairs])
    (by simp [check_isomorphic, check_isomorphic_sub, diff_treestructure, subtreeAt?, diffPairs])

/-- With `require_names_equal = false` the only message `diffPairs` can
produce is a child-count mismatch whose two reported counts differ. -/
theorem diffPairs_false_form (l : List ((NPath × DataTree) × (NPath × DataTree))) :
    diffPairs false l = ""
    ∨ ∃ qa na qb nb, na ≠ nb ∧ diffPairs false l = childDiffMsg qa na qb nb := by
  induction l with
  | nil => exact Or.inl rfl
  | cons x rest ih =>
    obtain ⟨a, b⟩ := x
    rw [diffPairs_cons, if_neg (by simp)]
    by_cases h : a.2.children.length ≠ b.2.children.length
    · exact Or.inr ⟨_, _, _, _, h, if_pos h⟩
    · rw [if_neg h]
      exact ih

/-- Claim C4 (amended): `diff_treestructure(a, b, require_names_equal)`
returns the empty string iff the trees are isomorphic (same child count at
every level-order-paired position, same name when required); any difference
in total node count — despite the paired iteration stopping at the shorter
sequence — produces a non-empty diff, and when `require_names_equal` is
false that diff is a child-count mismatch report (with name checking on, a
name mismatch at an earlier paired position may be reported instead). -/
theorem C4_diff_structure (pa : NPath) (a : DataTree) (pb : NPath) (b : DataTree)
    (rn : Bool) :
    (diff_treestructure pa a pb b rn = "" ↔ Iso rn a b)
    ∧ (countNodes a ≠ countNodes b → diff_treestructure pa a pb b rn ≠ "")
    ∧ (rn = false → countNodes a ≠ countNodes b →
        ∃ qa na qb nb, na ≠ nb ∧ diff_treestructure pa a pb b rn = childDiffMsg qa na qb nb) := by
  refine ⟨diff_empty_iff_iso pa a pb b rn, ?_, ?_⟩
  · intro hcount hdiff
    exact hcount (iso_countNodes a b ((diff_empty_iff_iso pa a pb b rn).mp hdiff))
  · intro hrn hcount
    subst hrn
    rcases diffPairs_false_form ((levelOrderAux [(pa, a)]).zip (levelOrderAux [(pb, b)])) with h | h
    · exact absurd (iso_countNodes a b ((diff_empty_iff_iso pa a pb b false).mp h)) hcount
    · exact h

/-- Witness for C4 at concrete inputs: same-shape trees with different names
diff to `""` under `require_names_equal = false`, and a 2-node vs 1-node tree
gives a non-empty diff. -/
theorem C4_diff_structure_witness :
    diff_treestructure [] (DataTree.node "p" (some 0) []) []
      (DataTree.node "q" (Option.none) []) false = ""
    ∧ diff_treestructure [] (DataTree.node "p" (some 0) [DataTree.node "c" (Option.none) []])
      [] (DataTree.node "q" (Option.none) []) false ≠ "" := by
  constructor
  · exact (C4_diff_structure [] _ [] _ false).1.mpr
      (Iso.node (fun h => absurd h (by simp)) List.Forall₂.nil)
  · exact (C4_diff_structure [] _ [] _ false).2.1 (by simp)

/-- Counterexample for claim C4 as stated: with `require_names_equal = true`,
two trees whose total node counts differ (2 vs 1) produce a *name*-mismatch
report, which is not a child-count mismatch report for any arguments. -/
theorem C4_counterexample :
    countNodes (DataTree.node "x" (Option.none) [DataTree.node "y" (Option.none) []]) ≠
      countNodes (DataTree.node "z" (Option.none) [])
    ∧ diff_treestructure [] (DataTree.node "x" (Option.none) [DataTree.node "y" (Option.none) []])
        [] (DataTree.node "z" (Option.none) []) true
      = nameDiffMsg "/" "x" "/" "z"
    ∧ ∀ qa na qb nb, nameDiffMsg "/" "x" "/" "z" ≠ childDiffMsg qa na qb nb := by
  refine ⟨by simp, ?_, fun qa na qb nb => nameDiffMsg_ne_childDiffMsg _ _ _ _ _ _ _ _⟩
  have h1 : renderPath [] = "/" := rfl
  simp [diff_treestructure, diffPairs, h1]

/-- A value as the user function receives it at one node position: the raw
dataset of a tree node (`none` when the node was empty), or a non-tree
argument passed through unchanged. -/
inductive Val where
  | dataset (d : Option Nat)
  | scalar (v : Nat)
deriving DecidableEq, Repr

/-- A Python value as recorded in the per-node result map: `None`, a payload
(`Dataset`/`DataArray`), a tuple, or any other object. -/
inductive PyObj where
  | none
  | ds (d : Nat)
  | tup (elems : List PyObj)
  | other

instance : Inhabited PyObj := ⟨PyObj.none⟩

instance : Inhabited DataTree := ⟨DataTree.node "" Option.none []⟩

/-- `r is None`. -/
def PyObj.isNoneObj : PyObj → Bool
  | .none => true
  | _ => false

/-- `isinstance(r, (Dataset, DataArray))`. -/
def PyObj.isDataObj : PyObj → Bool
  | .ds _ => true
  | _ => false

/-- A `DataTree` argument as the mapper receives it: the node handle the
caller passed, carrying the node's absolute path (what `node.path` returns,
ancestry included) and the subtree hanging at it. -/
structure STree where
  path : NPath
  tree : DataTree

/-- One argument of a mapped call: a `DataTree`, or any other value. -/
inductive Arg where
  | tree (t : STree)
  | scalar (v : Val)

/-- Modelled from the spec: `node.to_dataset()` — the raw payload view of a
node (an empty dataset for an empty node). -/
def to_dataset (t : DataTree) : Val := Val.dataset t.ds

/-- `node.subtree` for a handle: the preorder traversal of its subtree, each
entry carrying the node's absolute path. -/
def subtreeList (t : STree) : List (NPath × DataTree) := preorderT t.path t.tree

def Arg.treeOpt : Arg → Option STree
  | .tree t => some t
  | .scalar _ => Option.none

/-- `all_tree_inputs`: the tree-typed positional arguments followed by the
tree-typed keyword-argument values, in order.  Its head is the reference
tree, the rest are the co-trees. -/
def all_tree_inputs (args : List Arg) (kwargs : List (String × Arg)) : List STree :=
  args.filterMap Arg.treeOpt ++ kwargs.filterMap (fun kv => kv.2.treeOpt)

/-- The mapper's isomorphism loop: check each co-tree against the reference
tree with `require_names_equal=False` and `check_from_root=False` (for a
genuine node handle that is exactly `check_isomorphic_sub` on its path and
subtree); the first failure aborts the whole call. -/
def checkAllIso (first : STree) : List STree → Except MapErr Unit
  | [] => Except.ok ()
  | o :: rest =>
    match check_isomorphic_sub first.path first.tree o.path o.tree false with
    | Except.ok _ => checkAllIso first rest
    | Except.error e => Except.error e

/-- How many steps the zipped walk takes for one argument: a tree argument
is expanded to its own preorder traversal, any other argument repeats
forever (`itertools.repeat`), which we record as the reference length since
it never shortens the zip. -/
def argLen (firstLen : Nat) : Arg → Nat
  | .tree t => (subtreeList t).length
  | .scalar _ => firstLen

/-- Number of steps of the zipped traversal: `zip` stops at the shortest of
the reference traversal and every argument's aligned sequence. -/
def zipLen (first : STree) (args : List Arg) (kwargs : List (String × Arg)) : Nat :=
  ((args.map (argLen (subtreeList first).length))
    ++ (kwargs.map (fun kv => argLen (subtreeList first).length kv.2))).foldl
    Nat.min (subtreeList first).length

/-- The value one argument contributes at step `i` of the zipped walk: tree
arguments contribute their `i`-th preorder node converted with
`to_dataset`, other values pass through unchanged.  (The out-of-range
default is never reached: `i` stays below `zipLen`.) -/
def argValAt (a : Arg) (i : Nat) : Val :=
  match a with
  | .tree t =>
    match (subtreeList t)[i]? with
    | some pr => to_dataset pr.2
    | Option.none => Val.dataset Option.none
  | .scalar v => v

/-- The reference tree's (path, node) at step `i` of the walk (the default is
never reached: `i` stays below `zipLen`, which is at most the reference
traversal's length). -/
def refAt (first : STree) (i : Nat) : NPath × DataTree :=
  (subtreeList first)[i]?.getD ([], DataTree.node "" Option.none [])

/-- Python dict assignment `d[k] = v` on an insertion-ordered association
list: update an existing binding in place, else append. -/
def dictSet (d : List (NPath × PyObj)) (k : NPath) (v : PyObj) : List (NPath × PyObj) :=
  if d.any (fun kv => decide (kv.1 = k)) then
    d.map (fun kv => if kv.1 = k then (k, v) else kv)
  else d ++ [(k, v)]

/-- One step of the mapper's traversal loop: the reference node's path at
step `i`, paired with the recorded result — `None` when the reference node
is empty (`func` not invoked), else the raw return value of `func` on the
step's reassembled positional and keyword values. -/
def stepResult (f : List Val → List (String × Val) → PyObj) (first : STree)
    (args : List Arg) (kwargs : List (String × Arg)) (i : Nat) : NPath × PyObj :=
  ((refAt first i).1,
    if (refAt first i).2.is_empty then PyObj.none
    else f (args.map (fun a => argValAt a i)) (kwargs.map (fun kv => (kv.1, argValAt kv.2 i))))

/-- `out_data_objects` as the traversal loop leaves it: Python dict
assignment folded over the steps of the zipped walk. -/
def out_data_objects (f : List Val → List (String × Val) → PyObj) (first : STree)
    (args : List Arg) (kwargs : List (String × Arg)) : List (NPath × PyObj) :=
  (List.range (zipLen first args kwargs)).foldl
    (fun d i =>
      dictSet d (stepResult f first args kwargs i).1 (stepResult f first args kwargs i).2) []

/-- The node paths at which `func` is invoked: exactly the steps whose
reference node is non-empty. -/
def invocationPaths (first : STree) (args : List Arg) (kwargs : List (String × Arg)) :
    List NPath :=
  (List.range (zipLen first args kwargs)).filterMap
    (fun i => if (refAt first i).2.is_empty then Option.none else some (refAt first i).1)

/-- Modelled from the spec: the deferred-resolution step (`dask.compute` on
the dict's keys and values) — submit all deferred calls together, then
rebuild the mapping by zipping the resolved keys and values back up.  With
this embedding's eager semantics it rebuilds the same mapping. -/
def resolveAll (d : List (NPath × PyObj)) : List (NPath × PyObj) :=
  (d.map Prod.fst).zip (d.map Prod.snd)

/-- `_check_single_set_return_values(path_to_node, obj)`: a payload has
arity 1; a tuple must consist of payloads and has its length as arity;
anything else raises `TypeError` naming the path. -/
def _check_single_set_return_values (path_to_node : NPath) : PyObj → Except MapErr Nat
  | .ds _ => Except.ok 1
  | .tup es =>
    if es.all PyObj.isDataObj then Except.ok es.length
    else Except.error (MapErr.badTupleElement path_to_node)
  | _ => Except.error (MapErr.badReturnType path_to_node)

/-- The consistency loop of `_check_all_return_values` over the non-null
results after the first: validate each, and compare its arity with the
predecessor's.  `prevNum = none` models Python's
`prev_num_return_values = None`, which the source never sets from the first
entry (see claim C1). -/
def checkLoop (prevPath : NPath) (prevNum : Option Nat) :
    List (NPath × PyObj) → Except MapErr (Option Nat)
  | [] => Except.ok prevNum
  | (p, obj) :: rest =>
    match _check_single_set_return_values p obj with
    | Except.error e => Except.error e
    | Except.ok n =>
      match prevNum with
      | some pn =>
        if n ≠ pn then Except.error (MapErr.arityMismatch p n prevPath pn)
        else checkLoop p (some n) rest
      | Option.none => checkLoop p (some n) rest

/-- `_check_all_return_values(returned_objects)`: raise if every recorded
result is `None`; with exactly one non-null result validate it alone; with
more, run the pairwise-consistency loop over the non-null results after the
first one.  The two `allNoneResult` fallback arms only make the match total:
the first is guarded by the all-`None` test, the second by the loop being
run on a nonempty tail. -/
def _check_all_return_values (returned_objects : List (NPath × PyObj)) :
    Except MapErr Nat :=
  if returned_objects.all (fun kv => kv.2.isNoneObj) then
    Except.error MapErr.allNoneResult
  else
    match returned_objects.filter (fun kv => !kv.2.isNoneObj) with
    | [] => Except.error MapErr.allNoneResult
    | [(p, r)] => _check_single_set_return_values p r
    | (p0, _) :: rest =>
      match checkLoop p0 Option.none rest with
      | Except.error e => Except.error e
      | Except.ok (some n) => Except.ok n
      | Except.ok Option.none => Except.error MapErr.allNoneResult

/-- `NodePath(p).relative_to(base)` on paths as segment lists: strip the
base prefix.  `pathlib` raises when `base` is not a prefix; in the mapper it
always is, so the `[]` arm is unreachable.  Relativising a path to itself
gives `[]`, the canonical root marker — this absorbs the source's
`"." -> "/"` normalisation. -/
def relative_to (p base : NPath) : NPath :=
  if base.isPrefixOf p then p.drop base.length else []

/-- The data selected for output index `i` at reference path `p` during the
rebuild loop: a recorded tuple contributes its `i`-th element, any other
recorded value is used whole, and an absent path falls back to `None` (the
fallback is never taken — claim C10).  Python would raise `IndexError` were
a recorded tuple shorter than the common arity; that state never occurs in
validated runs and the embedding yields `None` there. -/
def outputDataFor (resolved : List (NPath × PyObj)) (i : Nat) (p : NPath) : PyObj :=
  match List.lookup p resolved with
  | some (PyObj.tup es) => es.getD i PyObj.none
  | some v => v
  | Option.none => PyObj.none

/-- `out_tree_contents` for output index `i`: dict-assign, for every node of
the reference tree's own traversal, its path relativised to the reference
tree's path mapped to the selected data. -/
def out_tree_contents (resolved : List (NPath × PyObj)) (first : STree) (i : Nat) :
    List (NPath × PyObj) :=
  (subtreeList first).foldl
    (fun d pr => dictSet d (relative_to pr.1 first.path) (outputDataFor resolved i pr.1)) []

/-- First occurrence of each element, in encounter order (recovers the child
order that a preorder path→payload mapping encodes). -/
def firstOccs : List String → List String
  | [] => []
  | h :: t => h :: firstOccs (t.filter (fun x => x != h))
termination_by l => l.length
decreasing_by
  simp only [List.length_cons]
  exact Nat.lt_succ_of_le (List.length_filter_le _ _)

@[simp] theorem firstOccs_nil : firstOccs [] = [] := by
  rw [firstOccs]

@[simp] theorem firstOccs_cons (h t) :
    firstOccs (h :: t) = h :: firstOccs (t.filter (fun x => x != h)) := by
  rw [firstOccs]

theorem mem_firstOccs : ∀ k (l : List String), l.length ≤ k →
    ∀ a, a ∈ firstOccs l → a ∈ l := by
  intro k
  induction k with
  | zero =>
    intro l hl a ha
    cases l with
    | nil => simp at ha
    | cons h t => simp at hl
  | succ k ih =>
    intro l hl a ha
    cases l with
    | nil => simp at ha
    | cons h t =>
      rw [firstOccs_cons] at ha
      rcases List.mem_cons.mp ha with rfl | ha'
      · exact List.mem_cons_self _ _
      · have hlen : (t.filter (fun x => x != h)).length ≤ k :=
          le_trans (List.length_filter_le _ _) (by simpa using Nat.succ_le_succ_iff.mp hl)
        exact List.mem_cons_of_mem _ (List.mem_of_mem_filter (ih _ hlen a ha'))

/-- The entries of a path→data mapping that descend into the child named
`h`: those whose leading segment is `h`, with it stripped. -/
def childEntries (h : String) (entries : List (NPath × PyObj)) : List (NPath × PyObj) :=
  entries.filterMap (fun e =>
    match e.1 with
    | [] => Option.none
    | s :: rest => if s = h then some (rest, e.2) else Option.none)

@[simp] theorem childEntries_nil (h : String) : childEntries h [] = [] := rfl

theorem childEntries_cons_root (h : String) (v rest) :
    childEntries h (([], v) :: rest) = childEntries h rest := by
  simp [childEntries]

theorem childEntries_cons_hit (h : String) (ptail v rest) :
    childEntries h ((h :: ptail, v) :: rest) = (ptail, v) :: childEntries h rest := by
  simp [childEntries]

theorem childEntries_cons_miss (h s : String) (ptail v rest) (hs : s ≠ h) :
    childEntries h ((s :: ptail, v) :: rest) = childEntries h rest := by
  simp [childEntries, hs]

/-- Total number of path segments of a mapping's keys (the termination
measure of `from_dict`). -/
def pathsTotalLen (entries : List (NPath × PyObj)) : Nat :=
  (entries.map (fun e => e.1.length)).sum

@[simp] theorem pathsTotalLen_nil : pathsTotalLen [] = 0 := rfl

@[simp] theorem pathsTotalLen_cons (e rest) :
    pathsTotalLen (e :: rest) = e.1.length + pathsTotalLen rest := by
  simp [pathsTotalLen]

theorem pathsTotalLen_childEntries_le (h : String) :
    ∀ entries, pathsTotalLen (childEntries h entries) ≤ pathsTotalLen entries := by
  intro entries
  induction entries with
  | nil => simp
  | cons e rest ih =>
    obtain ⟨p, v⟩ := e
    cases p with
    | nil =>
      rw [childEntries_cons_root]
      simp only [pathsTotalLen_cons]
      omega
    | cons s ptail =>
      by_cases hs : s = h
      · subst hs
        rw [childEntries_cons_hit]
        simp only [pathsTotalLen_cons, List.length_cons]
        omega
      · rw [childEntries_cons_miss h s ptail v rest hs]
        simp only [pathsTotalLen_cons]
        omega

theorem pathsTotalLen_childEntries_lt (h : String) :
    ∀ entries, (∃ e ∈ entries, e.1.head? = some h) →
      pathsTotalLen (childEntries h entries) < pathsTotalLen entries := by
  intro entries
  induction entries with
  | nil => intro hmem; simp at hmem
  | cons e rest ih =>
    intro hmem
    obtain ⟨p, v⟩ := e
    cases p with
    | nil =>
      have hmem' : ∃ e ∈ rest, e.1.head? = some h := by
        rcases hmem with ⟨e', he', hh⟩
        rcases List.mem_cons.mp he' with rfl | hmem2
        · simp at hh
        · exact ⟨e', hmem2, hh⟩
      rw [childEntries_cons_root]
      simp only [pathsTotalLen_cons]
      have := ih hmem'
      omega
    | cons s ptail =>
      by_cases hs : s = h
      · subst hs
        rw [childEntries_cons_hit]
        have hle := pathsTotalLen_childEntries_le s rest
        simp only [pathsTotalLen_cons, List.length_cons]
        omega
      · rw [childEntries_cons_miss h s ptail v rest hs]
        have hmem' : ∃ e ∈ rest, e.1.head? = some h := by
          rcases hmem with ⟨e', he', hh⟩
          rcases List.mem_cons.mp he' with rfl | hmem2
          · simp at hh
            exact absurd hh hs
          · exact ⟨e', hmem2, hh⟩
        simp only [pathsTotalLen_cons]
        have := ih hmem'
        omega

/-- Only payload values attach data to a rebuilt node; `None` leaves the
node empty (a non-payload value cannot reach `from_dict` in a validated
run). -/
def dataOfObj : PyObj → Option Nat
  | PyObj.ds d => some d
  | _ => Option.none

/-- Modelled from the spec: `DataTree.from_dict(d, name=...)` — build a tree
from a path→payload mapping plus a root name: the root takes the data
recorded at the root marker, and one child is created per distinct leading
path segment (in first-seen order, matching the creation order of
`__setitem__` insertion), recursively built from the entries below it. -/
def from_dict (entries : List (NPath × PyObj)) (name : String) : DataTree :=
  DataTree.node name
    (match List.lookup [] entries with
     | some v => dataOfObj v
     | Option.none => Option.none)
    ((firstOccs (entries.filterMap (fun e => e.1.head?))).attach.map
      (fun h => from_dict (childEntries h.1 entries) h.1))
termination_by pathsTotalLen entries
decreasing_by
  have hmem : h.1 ∈ entries.filterMap (fun e => e.1.head?) :=
    mem_firstOccs _ _ le_rfl h.1 h.2
  rcases List.mem_filterMap.mp hmem with ⟨e, he, hh⟩
  exact pathsTotalLen_childEntries_lt h.1 entries ⟨e, he, hh⟩

/-- `_map_over_subtree(*args, **kwargs)` — the wrapped function
`map_over_subtree(func)` produces, with the user function `func` as an
explicit parameter (it receives the reassembled positional and keyword
values of one node position).  Returns the single rebuilt tree when exactly
one output tree exists, else the ordered tuple (list) of them; every Python
exception surfaces as `Except.error`. -/
def _map_over_subtree (f : List Val → List (String × Val) → PyObj)
    (args : List Arg) (kwargs : List (String × Arg)) :
    Except MapErr (DataTree ⊕ List DataTree) :=
  match all_tree_inputs args kwargs with
  | [] => Except.error MapErr.noTreeInputs
  | first :: others =>
    match checkAllIso first others with
    | Except.error e => Except.error e
    | Except.ok _ =>
      match _check_all_return_values
          (resolveAll (out_data_objects f first args kwargs)) with
      | Except.error e => Except.error e
      | Except.ok num_return_values =>
        match (List.range num_return_values).map
            (fun i => from_dict
              (out_tree_contents (resolveAll (out_data_objects f first args kwargs)) first i)
              first.tree.name) with
        | [t] => Except.ok (Sum.inl t)
        | ts => Except.ok (Sum.inr ts)

theorem preorderT_eq_cons (base : NPath) (t : DataTree) :
    preorderT base t = (base, t) :: preorderL base t.children := by
  cases t with
  | node n d cs => simp

/-- Shifting the base path of a preorder traversal prefixes every listed
path. -/
theorem preorder_shift :
    ∀ t base, preorderT base t = (preorderT [] t).map (fun pr => (base ++ pr.1, pr.2)) := by
  refine dt_ind
    (fun t => ∀ base, preorderT base t = (preorderT [] t).map (fun pr => (base ++ pr.1, pr.2))) ?_
  intro n d cs ih base
  simp only [preorderT_node, List.map_cons, List.append_nil]
  refine congrArg _ ?_
  induction cs with
  | nil => simp
  | cons c rest ihl =>
    simp only [preorderL_cons, List.map_append]
    have hc := ih c (by simp)
    have h1 : preorderT (base ++ [c.name]) c
        = ((preorderT [c.name] c).map (fun pr => (base ++ pr.1, pr.2))) := by
      rw [hc (base ++ [c.name]), hc [c.name], List.map_map]
      refine List.map_congr_left ?_
      intro pr _
      simp
    rw [h1, ihl (fun x hx b => ih x (List.mem_cons_of_mem _ hx) b)]
    simp

/-- A preorder traversal has one entry per node. -/
theorem preorder_length :
    ∀ t base, (preorderT base t).length = countNodes t := by
  refine dt_ind (fun t => ∀ base, (preorderT base t).length = countNodes t) ?_
  intro n d cs ih base
  simp only [preorderT_node, List.length_cons, countNodes_node]
  have hL : ∀ rest, (∀ c ∈ rest, ∀ b, (preorderT b c).length = countNodes c) →
      ∀ b, (preorderL b rest).length = countNodesL rest := by
    intro rest
    induction rest with
    | nil => simp
    | cons c r ihl =>
      intro h b
      simp only [preorderL_cons, List.length_append, countNodesL_cons]
      rw [h c (by simp) _, ihl (fun x hx => h x (by simp [hx])) b]
  rw [hL cs ih base]
  omega

theorem mem_preorderL :
    ∀ (cs : List DataTree) (base : NPath) (pr : NPath × DataTree),
      pr ∈ preorderL base cs ↔ ∃ c ∈ cs, pr ∈ preorderT (base ++ [c.name]) c := by
  intro cs base pr
  induction cs with
  | nil => simp
  | cons c rest ih =>
    simp only [preorderL_cons, List.mem_append, ih, List.mem_cons]
    constructor
    · rintro (h | ⟨c', hc', h⟩)
      · exact ⟨c, Or.inl rfl, h⟩
      · exact ⟨c', Or.inr hc', h⟩
    · rintro ⟨c', rfl | hc', h⟩
      · exact Or.inl h
      · exact Or.inr ⟨c', hc', h⟩

/-- Every path listed by a preorder traversal extends the base path. -/
theorem mem_preorderT_path :
    ∀ (t : DataTree) (base : NPath) (pr : NPath × DataTree), pr ∈ preorderT base t →
      ∃ rel, pr.1 = base ++ rel ∧ (rel, pr.2) ∈ preorderT [] t := by
  intro t base pr h
  rw [preorder_shift t base] at h
  rcases List.mem_map.mp h with ⟨q, hq, rfl⟩
  exact ⟨q.1, rfl, hq⟩

/-- Distinctness checker for sibling names. -/
def nodupB : List String → Bool
  | [] => true
  | x :: rest => !rest.contains x && nodupB rest

mutual

/-- Well-formedness of a real tree: sibling names are distinct at every node
(the source keeps children in a name-keyed dictionary, so this holds for
every tree the mapper can receive). -/
def wfB : DataTree → Bool
  | .node _ _ cs => nodupB (cs.map DataTree.name) && wfL cs

/-- Well-formedness of a forest. -/
def wfL : List DataTree → Bool
  | [] => true
  | c :: rest => wfB c && wfL rest

end

@[simp] theorem wfB_node (n d cs) :
    wfB (DataTree.node n d cs) = (nodupB (cs.map DataTree.name) && wfL cs) := by
  rw [wfB]

@[simp] theorem wfL_nil : wfL [] = true := by
  rw [wfL]

@[simp] theorem wfL_cons (c rest) : wfL (c :: rest) = (wfB c && wfL rest) := by
  rw [wfL]

theorem wfL_mem {cs : List DataTree} (h : wfL cs = true) {c : DataTree} (hc : c ∈ cs) :
    wfB c = true := by
  induction cs with
  | nil => simp at hc
  | cons x rest ih =>
    simp only [wfL_cons, Bool.and_eq_true] at h
    rcases List.mem_cons.mp hc with rfl | hc'
    · exact h.1
    · exact ih h.2 hc'

theorem nodupB_head_not_mem {x : String} {rest : List String}
    (h : nodupB (x :: rest) = true) : x ∉ rest := by
  rw [nodupB] at h
  simp only [Bool.and_eq_true, Bool.not_eq_true'] at h
  intro hmem
  rw [List.contains_eq_any_beq] at h
  have := h.1
  rw [List.any_eq_false] at this
  exact absurd (by simp : (x == x) = true) (this x hmem)

theorem nodupB_tail {x : String} {rest : List String} (h : nodupB (x :: rest) = true) :
    nodupB rest = true := by
  rw [nodupB] at h
  exact (Bool.and_eq_true _ _).mp h |>.2

theorem mem_preorderL_path_shape {cs : List DataTree} {p : NPath}
    (h : p ∈ (preorderL [] cs).map Prod.fst) :
    ∃ c ∈ cs, ∃ rel, p = c.name :: rel := by
  rcases List.mem_map.mp h with ⟨pr, hpr, rfl⟩
  rcases (mem_preorderL cs [] pr).mp hpr with ⟨c, hc, hprT⟩
  rcases mem_preorderT_path c _ pr hprT with ⟨rel, heq, _⟩
  exact ⟨c, hc, rel, by simpa using heq⟩

/-- The paths listed by the preorder traversal of a well-formed tree are
pairwise distinct (tree paths are unique within one tree). -/
theorem pathsOf_nodup : ∀ t, wfB t = true → ((preorderT [] t).map Prod.fst).Nodup := by
  refine dt_ind (fun t => wfB t = true → ((preorderT [] t).map Prod.fst).Nodup) ?_
  intro n d cs ih hwf
  rw [wfB_node, Bool.and_eq_true] at hwf
  obtain ⟨hnames, hwl⟩ := hwf
  simp only [preorderT_node, List.map_cons]
  rw [List.nodup_cons]
  constructor
  · intro hmem
    rcases mem_preorderL_path_shape hmem with ⟨c, _, rel, heq⟩
    cases heq
  · have key : ∀ (cs' : List DataTree), nodupB (cs'.map DataTree.name) = true →
        wfL cs' = true →
        (∀ c ∈ cs', wfB c = true → ((preorderT [] c).map Prod.fst).Nodup) →
        ((preorderL [] cs').map Prod.fst).Nodup := by
      intro cs'
      induction cs' with
      | nil => simp
      | cons c rest ihl =>
        intro hn hw ihm
        simp only [preorderL_cons, List.map_append, List.nil_append]
        refine List.Nodup.append ?_ ?_ ?_
        · rw [preorder_shift c [c.name], List.map_map]
          have hcomp :
              (Prod.fst ∘ fun pr : NPath × DataTree => (([c.name] ++ pr.1 : NPath), pr.2))
              = (fun pr : NPath × DataTree => c.name :: pr.1) := by
            funext pr
            simp
          rw [hcomp]
          have hru : (fun pr : NPath × DataTree => c.name :: pr.1)
              = (fun p : NPath => c.name :: p) ∘ Prod.fst := by
            funext pr
            simp
          rw [hru, ← List.map_map]
          have hw' : wfB c = true ∧ wfL rest = true := by simpa using hw
          refine List.Nodup.map ?_ (ihm c (by simp) hw'.1)
          intro p q hpq
          simpa using hpq
        · have hw' : wfB c = true ∧ wfL rest = true := by simpa using hw
          refine ihl (nodupB_tail (by simpa using hn)) hw'.2 ?_
          exact fun x hx => ihm x (List.mem_cons_of_mem _ hx)
        · intro a ha hb
          rw [preorder_shift c [c.name], List.map_map] at ha
          rcases List.mem_map.mp ha with ⟨pr, _, heqa⟩
          rcases mem_preorderL_path_shape hb with ⟨c', hc', rel', heqb⟩
          have hhead : c.name = c'.name := by
            have : a = c.name :: pr.1 := by simpa using heqa.symm
            rw [this] at heqb
            exact (List.cons.injEq _ _ _ _).mp heqb |>.1
          have : c.name ∈ rest.map DataTree.name := hhead ▸ List.mem_map_of_mem _ hc'
          exact absurd this (nodupB_head_not_mem (by simpa using hn))
    exact key cs hnames hwl (fun c hc h => ih c hc h)

mutual

/-- The shape the rebuild loop is meant to produce, specified structurally:
the same children and names as the input tree, the root renamed, and the
node at relative path `p` holding payload `g p`. -/
def reshapeNamed : DataTree → (NPath → Option Nat) → String → DataTree
  | .node _ _ cs, g, name => .node name (g []) (reshapeL cs g)

/-- Children of a reshaped node. -/
def reshapeL : List DataTree → (NPath → Option Nat) → List DataTree
  | [], _ => []
  | c :: rest, g => reshapeNamed c (fun p => g (c.name :: p)) c.name :: reshapeL rest g

end

@[simp] theorem reshapeNamed_node (n : String) (d : Option Nat) (cs : List DataTree)
    (g : NPath → Option Nat) (name : String) :
    reshapeNamed (DataTree.node n d cs) g name = DataTree.node name (g []) (reshapeL cs g) := by
  rw [reshapeNamed]

@[simp] theorem reshapeL_nil (g : NPath → Option Nat) : reshapeL [] g = [] := by
  rw [reshapeL]

@[simp] theorem reshapeL_cons (c : DataTree) (rest : List DataTree) (g : NPath → Option Nat) :
    reshapeL (c :: rest) g
      = reshapeNamed c (fun p => g (c.name :: p)) c.name :: reshapeL rest g := by
  rw [reshapeL]

theorem reshapeL_names (cs : List DataTree) (g : NPath → Option Nat) :
    (reshapeL cs g).map DataTree.name = cs.map DataTree.name := by
  induction cs with
  | nil => simp
  | cons c rest ih =>
    simp only [reshapeL_cons, List.map_cons, ih]
    cases c with
    | node cn cd ccs => simp

/-- Navigate a tree along child names (`None` when a segment is missing). -/
def nodeAtPath : DataTree → NPath → Option DataTree
  | t, [] => some t
  | t, s :: rest =>
    match t.children.find? (fun c => c.name == s) with
    | some c => nodeAtPath c rest
    | Option.none => Option.none

@[simp] theorem nodeAtPath_nil (t : DataTree) : nodeAtPath t [] = some t := by
  rw [nodeAtPath]

theorem nodeAtPath_cons (t : DataTree) (s : String) (rest : NPath) :
    nodeAtPath t (s :: rest) =
      match t.children.find? (fun c => c.name == s) with
      | some c => nodeAtPath c rest
      | Option.none => Option.none := by
  rw [nodeAtPath]

theorem find_reshapeL {cs : List DataTree} {c : DataTree} {g : NPath → Option Nat}
    (hnames : nodupB (cs.map DataTree.name) = true) (hc : c ∈ cs) :
    (reshapeL cs g).find? (fun u => u.name == c.name)
      = some (reshapeNamed c (fun p => g (c.name :: p)) c.name) := by
  induction cs with
  | nil => simp at hc
  | cons c0 rest ih =>
    rcases List.mem_cons.mp hc with rfl | hmem
    · rw [reshapeL_cons, List.find?_cons_of_pos]
      cases c with
      | node cn cd ccs => simp
    · have hne : c0.name ≠ c.name := by
        intro heq
        have : c0.name ∈ rest.map DataTree.name := heq ▸ List.mem_map_of_mem _ hmem
        exact absurd this (nodupB_head_not_mem (by simpa using hnames))
      rw [reshapeL_cons, List.find?_cons_of_neg]
      · exact ih (nodupB_tail (by simpa using hnames)) hmem
      · cases c0 with
        | node c0n c0d c0cs => simpa using hne

/-- Navigating a reshaped well-formed tree along any preorder path of the
original reaches a node holding exactly the prescribed payload. -/
theorem nodeAtPath_reshape :
    ∀ t, wfB t = true → ∀ (g : NPath → Option Nat) (name : String) (p : NPath) (sub : DataTree),
      (p, sub) ∈ preorderT [] t →
      ∃ u, nodeAtPath (reshapeNamed t g name) p = some u ∧ u.ds = g p := by
  refine dt_ind (fun t => wfB t = true → ∀ g name p sub,
    (p, sub) ∈ preorderT [] t →
    ∃ u, nodeAtPath (reshapeNamed t g name) p = some u ∧ u.ds = g p) ?_
  intro n d cs ih hwf g name p sub hmem
  rw [wfB_node, Bool.and_eq_true] at hwf
  obtain ⟨hnames, hwl⟩ := hwf
  cases p with
  | nil =>
    refine ⟨DataTree.node name (g []) (reshapeL cs g), ?_, ?_⟩
    · simp
    · simp
  | cons s rest =>
    simp only [preorderT_node, List.mem_cons] at hmem
    rcases hmem with heq | hmem
    · cases heq
    · rcases (mem_preorderL cs [] (s :: rest, sub)).mp hmem with ⟨c, hc, hprT⟩
      rcases mem_preorderT_path c _ _ hprT with ⟨rel, heq, hrelmem⟩
      have hcons : s :: rest = c.name :: rel := by simpa using heq
      have hs1 : s = c.name := ((List.cons.injEq _ _ _ _).mp hcons).1
      have hs2 : rest = rel := ((List.cons.injEq _ _ _ _).mp hcons).2
      subst hs1
      subst hs2
      rw [reshapeNamed_node, nodeAtPath_cons]
      simp only [DataTree.children_node]
      rw [find_reshapeL hnames hc]
      exact ih c hc (wfL_mem hwl hc) (fun q => g (c.name :: q)) c.name rest sub hrelmem

theorem filterMap_all_some {α β : Type} (f : α → β) :
    ∀ l : List α, l.filterMap (fun x => some (f x)) = l.map f := by
  intro l
  induction l with
  | nil => simp
  | cons a rest ih => simp [List.filterMap_cons, ih]

theorem filterMap_all_none {α β : Type} :
    ∀ l : List α, l.filterMap (fun _ => (Option.none : Option β)) = [] := by
  intro l
  induction l with
  | nil => simp
  | cons a rest ih => simp [List.filterMap_cons, ih]

theorem childEntries_append (h : String) (l1 l2 : List (NPath × PyObj)) :
    childEntries h (l1 ++ l2) = childEntries h l1 ++ childEntries h l2 := by
  unfold childEntries
  exact List.filterMap_append _ _ _

/-- The head segments contributed by the preorder entries of a forest: each
child contributes its name once per node of its subtree, in child order. -/
theorem heads_preorderL (g : NPath → PyObj) :
    ∀ (cs : List DataTree),
      ((preorderL [] cs).map (fun pr => (pr.1, g pr.1))).filterMap (fun e => e.1.head?)
        = cs.flatMap (fun c => List.replicate (countNodes c) c.name) := by
  intro cs
  induction cs with
  | nil => simp
  | cons c rest ih =>
    rw [preorderL_cons, List.map_append, List.filterMap_append, List.flatMap_cons, ih]
    congr 1
    rw [List.nil_append, preorder_shift c [c.name], List.map_map, List.filterMap_map]
    have hcomp : ((fun e : NPath × PyObj => e.1.head?)
        ∘ ((fun pr : NPath × PyObj => pr) ∘ (fun pr : NPath × DataTree =>
          ((([c.name] ++ pr.1 : NPath), g ([c.name] ++ pr.1))))))
        = fun pr : NPath × DataTree => some c.name := by
      funext pr
      simp
    have hcomp2 : ((fun e : NPath × PyObj => e.1.head?)
        ∘ ((fun pr : NPath × DataTree => (pr.1, g pr.1))
          ∘ (fun pr : NPath × DataTree => (([c.name] ++ pr.1 : NPath), pr.2))))
        = fun pr : NPath × DataTree => some c.name := by
      funext pr
      simp
    rw [hcomp2]
    have : (fun pr : NPath × DataTree => some c.name)
        = (fun x : NPath × DataTree => some ((fun _ => c.name) x)) := rfl
    rw [this, filterMap_all_some]
    have hlen := preorder_length c []
    rw [List.map_const', preorder_length c []]

theorem childEntries_group_hit (c : DataTree) (g : NPath → PyObj) :
    childEntries c.name ((preorderT [c.name] c).map (fun pr => (pr.1, g pr.1)))
      = (preorderT [] c).map (fun pr => (pr.1, g (c.name :: pr.1))) := by
  rw [preorder_shift c [c.name], List.map_map]
  unfold childEntries
  rw [List.filterMap_map]
  have hcomp : ((fun e : NPath × PyObj =>
        match e.1 with
        | [] => (Option.none : Option (NPath × PyObj))
        | s :: rest => if s = c.name then some (rest, e.2) else Option.none)
      ∘ ((fun pr : NPath × DataTree => (pr.1, g pr.1))
        ∘ (fun pr : NPath × DataTree => (([c.name] ++ pr.1 : NPath), pr.2))))
      = fun pr : NPath × DataTree => some (pr.1, g (c.name :: pr.1)) := by
    funext pr
    simp
  rw [hcomp]
  have : (fun pr : NPath × DataTree => some (pr.1, g (c.name :: pr.1)))
      = (fun pr : NPath × DataTree =>
          some ((fun q : NPath × DataTree => (q.1, g (c.name :: q.1))) pr)) := rfl
  rw [this, filterMap_all_some]

theorem childEntries_group_miss (h : String) (c : DataTree) (g : NPath → PyObj)
    (hne : c.name ≠ h) :
    childEntries h ((preorderT [c.name] c).map (fun pr => (pr.1, g pr.1))) = [] := by
  rw [preorder_shift c [c.name], List.map_map]
  unfold childEntries
  rw [List.filterMap_map]
  have hcomp : ((fun e : NPath × PyObj =>
        match e.1 with
        | [] => (Option.none : Option (NPath × PyObj))
        | s :: rest => if s = h then some (rest, e.2) else Option.none)
      ∘ ((fun pr : NPath × DataTree => (pr.1, g pr.1))
        ∘ (fun pr : NPath × DataTree => (([c.name] ++ pr.1 : NPath), pr.2))))
      = fun _ : NPath × DataTree => (Option.none : Option (NPath × PyObj)) := by
    funext pr
    simp [hne]
  rw [hcomp, filterMap_all_none]

theorem childEntries_groups_nil (h : String) (g : NPath → PyObj) :
    ∀ (rest : List DataTree), h ∉ rest.map DataTree.name →
      childEntries h ((preorderL [] rest).map (fun pr => (pr.1, g pr.1))) = [] := by
  intro rest
  induction rest with
  | nil => simp [childEntries]
  | cons c0 r ih =>
    intro hn
    rw [preorderL_cons, List.map_append, childEntries_append, List.nil_append]
    have hne : c0.name ≠ h := by
      intro heq
      exact hn (by simp [heq])
    rw [childEntries_group_miss h c0 g hne, ih (fun hmem => hn (by simp [hmem]))]
    simp

theorem childEntries_full (g : NPath → PyObj) :
    ∀ (cs : List DataTree) (c : DataTree),
      nodupB (cs.map DataTree.name) = true → c ∈ cs →
      childEntries c.name ((preorderL [] cs).map (fun pr => (pr.1, g pr.1)))
        = (preorderT [] c).map (fun pr => (pr.1, g (c.name :: pr.1))) := by
  intro cs
  induction cs with
  | nil => intro c _ hc; simp at hc
  | cons c0 rest ih =>
    intro c hnames hc
    rw [preorderL_cons, List.map_append, childEntries_append, List.nil_append]
    rcases List.mem_cons.mp hc with rfl | hmem
    · rw [childEntries_group_hit]
      rw [childEntries_groups_nil c.name g rest
        (nodupB_head_not_mem (by simpa using hnames)), List.append_nil]
    · have hne : c0.name ≠ c.name := by
        intro heq
        have : c0.name ∈ rest.map DataTree.name := heq ▸ List.mem_map_of_mem _ hmem
        exact absurd this (nodupB_head_not_mem (by simpa using hnames))
      rw [childEntries_group_miss c.name c0 g hne, List.nil_append]
      exact ih c (nodupB_tail (by simpa using hnames)) hmem

theorem firstOccs_grouped :
    ∀ (cs : List DataTree), nodupB (cs.map DataTree.name) = true →
      firstOccs (cs.flatMap (fun c => List.replicate (countNodes c) c.name))
        = cs.map DataTree.name := by
  intro cs
  induction cs with
  | nil => simp
  | cons c rest ih =>
    intro hn
    rw [List.flatMap_cons]
    obtain ⟨k, hk⟩ : ∃ k, countNodes c = k + 1 :=
      ⟨countNodes c - 1, by have := countNodes_pos c; omega⟩
    rw [hk, List.replicate_succ, List.cons_append, firstOccs_cons]
    rw [List.filter_append]
    have h1 : (List.replicate k c.name).filter (fun x => x != c.name) = [] := by
      refine List.filter_eq_nil_iff.mpr ?_
      intro a ha
      have : a = c.name := List.eq_of_mem_replicate ha
      simp [this]
    have h2 : ((rest.flatMap (fun c' => List.replicate (countNodes c') c'.name)).filter
        (fun x => x != c.name))
        = rest.flatMap (fun c' => List.replicate (countNodes c') c'.name) := by
      refine List.filter_eq_self.mpr ?_
      intro a ha
      rcases List.mem_flatMap.mp ha with ⟨c', hc', hrep⟩
      have haeq : a = c'.name := List.eq_of_mem_replicate hrep
      have hne : c'.name ≠ c.name := by
        intro heq
        have : c.name ∈ rest.map DataTree.name := heq ▸ List.mem_map_of_mem _ hc'
        exact absurd this (nodupB_head_not_mem (by simpa using hn))
      simp [haeq, hne]
    rw [h1, h2, List.nil_append, List.map_cons]
    exact congrArg _ (ih (nodupB_tail (by simpa using hn)))

theorem reshapeL_eq_map (G : NPath → Option Nat) :
    ∀ (cs : List DataTree),
      reshapeL cs G = cs.map (fun c => reshapeNamed c (fun p => G (c.name :: p)) c.name) := by
  intro cs
  induction cs with
  | nil => simp
  | cons c rest ih => simp [ih]

theorem from_dict_eq (entries : List (NPath × PyObj)) (name : String) :
    from_dict entries name = DataTree.node name
      (match List.lookup [] entries with
       | some v => dataOfObj v
       | Option.none => Option.none)
      ((firstOccs (entries.filterMap (fun e => e.1.head?))).map
        (fun h => from_dict (childEntries h entries) h)) := by
  rw [from_dict]
  exact congrArg _
    (List.attach_map_coe _ (fun x => from_dict (childEntries x entries) x))

/-- Master rebuild lemma: feeding `from_dict` one entry per preorder path of
a well-formed tree rebuilds exactly that tree's shape and names (root
renamed), with each node's payload read off its entry. -/
theorem from_dict_preorder :
    ∀ t, wfB t = true → ∀ (g : NPath → PyObj) (name : String),
      from_dict ((preorderT [] t).map (fun pr => (pr.1, g pr.1))) name
        = reshapeNamed t (fun p => dataOfObj (g p)) name := by
  refine dt_ind (fun t => wfB t = true → ∀ (g : NPath → PyObj) (name : String),
    from_dict ((preorderT [] t).map (fun pr => (pr.1, g pr.1))) name
      = reshapeNamed t (fun p => dataOfObj (g p)) name) ?_
  intro n d cs ih hwf g name
  rw [wfB_node, Bool.and_eq_true] at hwf
  obtain ⟨hnames, hwl⟩ := hwf
  simp only [preorderT_node, List.map_cons]
  rw [from_dict_eq]
  have hheads : (((([] : NPath), g []) :: ((preorderL [] cs).map (fun pr => (pr.1, g pr.1)))).filterMap
      (fun e => e.1.head?))
      = cs.flatMap (fun c => List.replicate (countNodes c) c.name) := by
    rw [List.filterMap_cons]
    simpa using heads_preorderL g cs
  rw [hheads, firstOccs_grouped cs hnames, reshapeNamed_node]
  have hlk : List.lookup ([] : NPath)
      (((([] : NPath), g []) :: ((preorderL [] cs).map (fun pr => (pr.1, g pr.1))))) = some (g []) := by
    simp [List.lookup]
  rw [hlk]
  refine congrArg _ ?_
  rw [reshapeL_eq_map, List.map_map]
  refine List.map_congr_left ?_
  intro c hc
  show from_dict (childEntries c.name
      (((([] : NPath), g []) :: ((preorderL [] cs).map (fun pr => (pr.1, g pr.1)))))) c.name
    = reshapeNamed c (fun p => dataOfObj (g (c.name :: p))) c.name
  rw [childEntries_cons_root, childEntries_full g cs c hnames hc]
  exact ih c hc (wfL_mem hwl hc) (fun p => g (c.name :: p)) c.name

theorem dictSet_of_not_mem (d : List (NPath × PyObj)) (k : NPath) (v : PyObj)
    (h : k ∉ d.map Prod.fst) : dictSet d k v = d ++ [(k, v)] := by
  unfold dictSet
  rw [if_neg]
  simp only [List.any_eq_true, decide_eq_true_eq, not_exists, not_and]
  intro kv hkv heq
  exact h (heq ▸ List.mem_map_of_mem _ hkv)

theorem keys_dictSet_update (d : List (NPath × PyObj)) (k : NPath) (v : PyObj) :
    ((d.map (fun kv => if kv.1 = k then (k, v) else kv)).map Prod.fst) = d.map Prod.fst := by
  rw [List.map_map]
  refine List.map_congr_left ?_
  intro kv _
  by_cases h : kv.1 = k
  · simp [h]
  · simp [h]

theorem mem_keys_dictSet (d : List (NPath × PyObj)) (k : NPath) (v : PyObj) (k' : NPath) :
    k' ∈ (dictSet d k v).map Prod.fst ↔ k' ∈ d.map Prod.fst ∨ k' = k := by
  unfold dictSet
  by_cases h : d.any (fun kv => decide (kv.1 = k)) = true
  · rw [if_pos h, keys_dictSet_update]
    simp only [List.any_eq_true, decide_eq_true_eq] at h
    obtain ⟨kv0, hkv0, hk0⟩ := h
    constructor
    · exact Or.inl
    · rintro (hm | rfl)
      · exact hm
      · exact hk0 ▸ List.mem_map_of_mem _ hkv0
  · rw [if_neg h]
    simp

theorem lookup_isSome_iff_keys (k : NPath) :
    ∀ (l : List (NPath × PyObj)), (List.lookup k l).isSome = true ↔ k ∈ l.map Prod.fst := by
  intro l
  induction l with
  | nil => simp
  | cons kv rest ih =>
    obtain ⟨k0, v0⟩ := kv
    by_cases h : k = k0
    · subst h
      simp [List.lookup]
    · rw [List.lookup]
      have hbeq : (k == k0) = false := by
        simp [h]
      rw [hbeq]
      simp [h, ih]

theorem lookup_of_mem_nodup (k : NPath) (v : PyObj) :
    ∀ (l : List (NPath × PyObj)), (l.map Prod.fst).Nodup → (k, v) ∈ l →
      List.lookup k l = some v := by
  intro l
  induction l with
  | nil => intro _ h; simp at h
  | cons kv rest ih =>
    intro hnd hm
    obtain ⟨k0, v0⟩ := kv
    simp only [List.map_cons, List.nodup_cons] at hnd
    rcases List.mem_cons.mp hm with heq | hmem
    · rw [(Prod.mk.injEq _ _ _ _).mp heq |>.1, (Prod.mk.injEq _ _ _ _).mp heq |>.2]
      simp [List.lookup]
    · have hne : k ≠ k0 := by
        intro heq
        subst heq
        exact hnd.1 (List.mem_map_of_mem Prod.fst hmem)
      rw [List.lookup]
      have hbeq : (k == k0) = false := by simp [hne]
      rw [hbeq]
      exact ih hnd.2 hmem

theorem foldl_dictSet_of_nodup :
    ∀ (l acc : List (NPath × PyObj)), ((acc ++ l).map Prod.fst).Nodup →
      l.foldl (fun d pr => dictSet d pr.1 pr.2) acc = acc ++ l := by
  intro l
  induction l with
  | nil => intro acc _; simp
  | cons pr rest ih =>
    intro acc hnd
    have hkey : pr.1 ∉ acc.map Prod.fst := by
      intro hmem
      have h1 : (acc.map Prod.fst).Disjoint ((pr :: rest).map Prod.fst) := by
        have := (List.nodup_append.mp (by simpa using hnd))
        exact this.2.2
      exact h1 hmem (by simp)
    rw [List.foldl_cons, dictSet_of_not_mem _ _ _ hkey]
    have := ih (acc ++ [pr]) (by simpa using hnd)
    rw [this]
    simp

theorem mem_keys_foldl_dictSet :
    ∀ (l acc : List (NPath × PyObj)) (k : NPath),
      (k ∈ l.map Prod.fst ∨ k ∈ acc.map Prod.fst) →
      k ∈ (l.foldl (fun d pr => dictSet d pr.1 pr.2) acc).map Prod.fst := by
  intro l
  induction l with
  | nil =>
    intro acc k h
    simpa using h.resolve_left (by simp)
  | cons pr rest ih =>
    intro acc k h
    rw [List.foldl_cons]
    refine ih _ k ?_
    rcases h with h | h
    · rcases List.mem_cons.mp (by simpa using h : k ∈ pr.1 :: rest.map Prod.fst) with rfl | h'
      · exact Or.inr ((mem_keys_dictSet _ _ _ _).mpr (Or.inr rfl))
      · exact Or.inl h'
    · exact Or.inr ((mem_keys_dictSet _ _ _ _).mpr (Or.inl h))

theorem resolveAll_eq (d : List (NPath × PyObj)) : resolveAll d = d := by
  unfold resolveAll
  induction d with
  | nil => simp
  | cons kv rest ih => simpa using ih

theorem foldl_min_const : ∀ (l : List Nat) (a : Nat), (∀ x ∈ l, a ≤ x) →
    l.foldl Nat.min a = a := by
  intro l
  induction l with
  | nil => intro a _; rfl
  | cons x rest ih =>
    intro a h
    rw [List.foldl_cons]
    have hax : Nat.min a x = a := Nat.min_eq_left (h x (by simp))
    rw [hax]
    exact ih a (fun y hy => h y (by simp [hy]))

theorem checkAllIso_ok_iso (first : STree) :
    ∀ others, checkAllIso first others = Except.ok () →
      ∀ o ∈ others, Iso false first.tree o.tree := by
  intro others
  induction others with
  | nil => intro _ o ho; simp at ho
  | cons o0 rest ih =>
    intro h o ho
    rw [checkAllIso] at h
    cases hc : check_isomorphic_sub first.path first.tree o0.path o0.tree false with
    | error e => rw [hc] at h; simp at h
    | ok u =>
      rw [hc] at h
      rcases List.mem_cons.mp ho with rfl | hmem
      · cases u
        exact (check_isomorphic_sub_ok_iff _ _ _ _ _).mp hc
      · exact ih h o hmem

theorem subtreeList_length (t : STree) : (subtreeList t).length = countNodes t.tree := by
  unfold subtreeList
  exact preorder_length t.tree t.path

theorem mem_all_tree_inputs_length (first : STree) (others : List STree)
    (args : List Arg) (kwargs : List (String × Arg))
    (htrees : all_tree_inputs args kwargs = first :: others)
    (hiso : checkAllIso first others = Except.ok ())
    (t : STree) (ht : t ∈ all_tree_inputs args kwargs) :
    (subtreeList t).length = (subtreeList first).length := by
  rw [htrees] at ht
  rcases List.mem_cons.mp ht with rfl | hmem
  · rfl
  · rw [subtreeList_length, subtreeList_length]
    exact (iso_countNodes first.tree t.tree (checkAllIso_ok_iso first others hiso t hmem)).symm

theorem zipLen_eq (first : STree) (args : List Arg) (kwargs : List (String × Arg))
    (others : List STree)
    (htrees : all_tree_inputs args kwargs = first :: others)
    (hiso : checkAllIso first others = Except.ok ()) :
    zipLen first args kwargs = (subtreeList first).length := by
  unfold zipLen
  apply foldl_min_const
  intro x hx
  rcases List.mem_append.mp hx with hx | hx
  · rcases List.mem_map.mp hx with ⟨a, ha, rfl⟩
    cases a with
    | scalar v => exact le_rfl
    | tree t =>
      have htm : t ∈ all_tree_inputs args kwargs := by
        unfold all_tree_inputs
        exact List.mem_append.mpr (Or.inl (List.mem_filterMap.mpr ⟨Arg.tree t, ha, rfl⟩))
      have := mem_all_tree_inputs_length first others args kwargs htrees hiso t htm
      show (subtreeList first).length ≤ (subtreeList t).length
      omega
  · rcases List.mem_map.mp hx with ⟨kv, hkv, rfl⟩
    cases hv : kv.2 with
    | scalar v => simp [hv, argLen]
    | tree t =>
      have htm : t ∈ all_tree_inputs args kwargs := by
        unfold all_tree_inputs
        refine List.mem_append.mpr (Or.inr (List.mem_filterMap.mpr ⟨kv, hkv, ?_⟩))
        rw [hv]
        rfl
      have := mem_all_tree_inputs_length first others args kwargs htrees hiso t htm
      show (subtreeList first).length ≤ (subtreeList t).length
      omega

theorem refAt_lt (first : STree) (j : Nat) (hj : j < (subtreeList first).length) :
    refAt first j = (subtreeList first).get ⟨j, hj⟩ := by
  unfold refAt
  rw [List.getElem?_eq_getElem hj]
  rfl

theorem keys_stepList (f : List Val → List (String × Val) → PyObj) (first : STree)
    (args : List Arg) (kwargs : List (String × Arg))
    (hN : zipLen first args kwargs = (subtreeList first).length) :
    (((List.range (zipLen first args kwargs)).map (stepResult f first args kwargs)).map
      Prod.fst) = (subtreeList first).map Prod.fst := by
  rw [List.map_map, hN]
  apply List.ext_getElem
  · simp
  · intro i h1 h2
    simp only [List.getElem_map, List.getElem_range, Function.comp_apply]
    have hi : i < (subtreeList first).length := by simpa using h1
    show (stepResult f first args kwargs i).1 = _
    unfold stepResult
    rw [refAt_lt first i hi]
    rfl

theorem out_data_objects_eq_stepList (f : List Val → List (String × Val) → PyObj)
    (first : STree) (args : List Arg) (kwargs : List (String × Arg))
    (hN : zipLen first args kwargs = (subtreeList first).length)
    (hnd : ((subtreeList first).map Prod.fst).Nodup) :
    out_data_objects f first args kwargs
      = (List.range (zipLen first args kwargs)).map (stepResult f first args kwargs) := by
  unfold out_data_objects
  rw [← List.foldl_map (stepResult f first args kwargs) (fun d pr => dictSet d pr.1 pr.2)]
  have hnd' : ((([] : List (NPath × PyObj))
      ++ (List.range (zipLen first args kwargs)).map (stepResult f first args kwargs)).map
        Prod.fst).Nodup := by
    rw [List.nil_append, keys_stepList f first args kwargs hN]
    exact hnd
  rw [foldl_dictSet_of_nodup _ _ hnd']
  simp

theorem lookup_out_at (f : List Val → List (String × Val) → PyObj) (first : STree)
    (args : List Arg) (kwargs : List (String × Arg))
    (hN : zipLen first args kwargs = (subtreeList first).length)
    (hnd : ((subtreeList first).map Prod.fst).Nodup)
    (j : Nat) (hj : j < (subtreeList first).length) :
    List.lookup ((subtreeList first).get ⟨j, hj⟩).1 (out_data_objects f first args kwargs)
      = some (stepResult f first args kwargs j).2 := by
  rw [out_data_objects_eq_stepList f first args kwargs hN hnd]
  apply lookup_of_mem_nodup
  · rw [keys_stepList f first args kwargs hN]
    exact hnd
  · have hmem : stepResult f first args kwargs j
        ∈ (List.range (zipLen first args kwargs)).map (stepResult f first args kwargs) :=
      List.mem_map_of_mem _ (List.mem_range.mpr (by omega))
    have hkey : (stepResult f first args kwargs j).1 = ((subtreeList first).get ⟨j, hj⟩).1 := by
      unfold stepResult
      rw [refAt_lt first j hj]
    rw [← hkey]
    exact hmem

theorem check_all_allNone (returned : List (NPath × PyObj))
    (h : returned.all (fun kv => kv.2.isNoneObj) = true) :
    _check_all_return_values returned = Except.error MapErr.allNoneResult := by
  unfold _check_all_return_values
  rw [if_pos h]

/-- Claim C1 (code bug in `_check_all_return_values`): the loop initialises
`prev_num_return_values = None` and starts at the second non-null result, so
the first non-null result's arity is never computed or compared.  First
conjunct: a 2-tuple at the first non-null path and a single payload at the
second — the claimed `ReturnValueError` is not raised and arity 1 is
returned.  Second conjunct: the same mismatch between the second and third
results is caught, confirming the slip is specifically about the first. -/
theorem C1_first_arity_unchecked :
    _check_all_return_values
        [([], PyObj.tup [PyObj.ds 1, PyObj.ds 2]), (["a"], PyObj.ds 3)]
      = Except.ok 1
    ∧ _check_all_return_values
        [([], PyObj.ds 1), (["a"], PyObj.ds 3), (["b"], PyObj.tup [PyObj.ds 1, PyObj.ds 2])]
      = Except.error (MapErr.arityMismatch ["b"] 2 ["a"] 1) := by
  exact ⟨rfl, rfl⟩

/-- Claim C8: a map call whose recorded per-node result is `None` at every
visited position (the reference-tree inputs and isomorphism checks being in
order) raises `AllNoneResultError`; no output tree is constructed. -/
theorem C8_all_none_raises (f : List Val → List (String × Val) → PyObj)
    (args : List Arg) (kwargs : List (String × Arg)) (first : STree) (others : List STree)
    (htrees : all_tree_inputs args kwargs = first :: others)
    (hiso : checkAllIso first others = Except.ok ())
    (hnone : (out_data_objects f first args kwargs).all (fun kv => kv.2.isNoneObj) = true) :
    _map_over_subtree f args kwargs = Except.error MapErr.allNoneResult := by
  unfold _map_over_subtree
  rw [htrees]
  dsimp only
  rw [hiso]
  have hck : _check_all_return_values (resolveAll (out_data_objects f first args kwargs))
      = Except.error MapErr.allNoneResult := by
    rw [resolveAll_eq]
    exact check_all_allNone _ hnone
  rw [hck]

/-- A small concrete tree reused by the witnesses: root `r` with payload 1,
an empty child `a`, and a child `b` with payload 2. -/
def sampleTree : DataTree :=
  DataTree.node "r" (some 1)
    [DataTree.node "a" Option.none [], DataTree.node "b" (some 2) []]

/-- The handle a caller holding `sampleTree` at the root passes to the
mapper. -/
def sampleFirst : STree := ⟨[], sampleTree⟩

/-- Witness for C8: mapping the constant-`None` function over `sampleTree`
raises the all-`None` error. -/
theorem C8_all_none_raises_witness :
    _map_over_subtree (fun _ _ => PyObj.none) [Arg.tree sampleFirst] []
      = Except.error MapErr.allNoneResult :=
  C8_all_none_raises (fun _ _ => PyObj.none) [Arg.tree sampleFirst] [] sampleFirst []
    rfl rfl (by rfl)

/-- Claim C10: after the traversal phase the per-node result map holds an
entry (possibly `None`) for every path of the reference tree's own preorder
traversal; the deferred-resolution step preserves every entry; hence the
rebuild loop's lookup always finds an entry and its absent-path fallback is
never taken. -/
theorem C10_every_path_recorded (f : List Val → List (String × Val) → PyObj)
    (args : List Arg) (kwargs : List (String × Arg)) (first : STree) (others : List STree)
    (htrees : all_tree_inputs args kwargs = first :: others)
    (hiso : checkAllIso first others = Except.ok ()) :
    ∀ pr ∈ subtreeList first, ∃ v,
      List.lookup pr.1 (out_data_objects f first args kwargs) = some v
      ∧ List.lookup pr.1 (resolveAll (out_data_objects f first args kwargs)) = some v := by
  intro pr hpr
  have hN := zipLen_eq first args kwargs others htrees hiso
  have hkey : pr.1 ∈ (out_data_objects f first args kwargs).map Prod.fst := by
    unfold out_data_objects
    rw [← List.foldl_map (stepResult f first args kwargs) (fun d pr => dictSet d pr.1 pr.2)]
    apply mem_keys_foldl_dictSet
    left
    rw [keys_stepList f first args kwargs hN]
    exact List.mem_map_of_mem _ hpr
  have hsome := (lookup_isSome_iff_keys pr.1 _).mpr hkey
  obtain ⟨v, hv⟩ := Option.isSome_iff_exists.mp hsome
  exact ⟨v, hv, by rw [resolveAll_eq]; exact hv⟩

/-- Witness for C10 at `sampleTree` and the empty child's path. -/
theorem C10_every_path_recorded_witness :
    ∃ v, List.lookup ["a"]
        (out_data_objects (fun _ _ => PyObj.ds 7) sampleFirst [Arg.tree sampleFirst] [])
        = some v
      ∧ List.lookup ["a"]
        (resolveAll (out_data_objects (fun _ _ => PyObj.ds 7) sampleFirst [Arg.tree sampleFirst] []))
        = some v :=
  C10_every_path_recorded (fun _ _ => PyObj.ds 7) [Arg.tree sampleFirst] [] sampleFirst []
    rfl rfl (["a"], DataTree.node "a" Option.none []) (by simp [subtreeList, sampleFirst, sampleTree])

theorem isPrefixOf_append_self : ∀ (base rel : NPath), base.isPrefixOf (base ++ rel) = true := by
  intro base rel
  induction base with
  | nil => simp [List.isPrefixOf]
  | cons b bs ih => simp [List.isPrefixOf, ih]

theorem relative_to_append (base rel : NPath) : relative_to (base ++ rel) base = rel := by
  unfold relative_to
  rw [if_pos (isPrefixOf_append_self base rel)]
  exact List.drop_left base rel

/-- With distinct reference paths, the rebuild loop's dict is exactly one
entry per relativised preorder path of the reference tree. -/
theorem out_tree_contents_eq (resolved : List (NPath × PyObj)) (first : STree) (i : Nat)
    (hnd : ((preorderT [] first.tree).map Prod.fst).Nodup) :
    out_tree_contents resolved first i
      = (preorderT [] first.tree).map
          (fun pr => (pr.1, outputDataFor resolved i (first.path ++ pr.1))) := by
  unfold out_tree_contents subtreeList
  rw [preorder_shift first.tree first.path, List.foldl_map]
  have hfun : (fun (d : List (NPath × PyObj)) (pr : NPath × DataTree) =>
        dictSet d (relative_to (first.path ++ pr.1) first.path)
          (outputDataFor resolved i (first.path ++ pr.1)))
      = (fun d pr => dictSet d pr.1
          (outputDataFor resolved i (first.path ++ pr.1))) := by
    funext d pr
    rw [relative_to_append]
  rw [hfun]
  rw [← List.foldl_map
    (fun pr : NPath × DataTree => (pr.1, outputDataFor resolved i (first.path ++ pr.1)))
    (fun d pr => dictSet d pr.1 pr.2)]
  have hkeys : (((preorderT [] first.tree).map
      (fun pr => (pr.1, outputDataFor resolved i (first.path ++ pr.1)))).map Prod.fst)
      = (preorderT [] first.tree).map Prod.fst := by
    rw [List.map_map]
    rfl
  have hnd' : ((([] : List (NPath × PyObj)) ++ (preorderT [] first.tree).map
      (fun pr => (pr.1, outputDataFor resolved i (first.path ++ pr.1)))).map Prod.fst).Nodup := by
    rw [List.nil_append, hkeys]
    exact hnd
  rw [foldl_dictSet_of_nodup _ _ hnd']
  simp

/-- A successful map call returns one rebuilt tree per output index, each
the reshape of the reference tree prescribed by the resolved result map
(list form, for any arity other than 1). -/
theorem map_success_trees_list (f : List Val → List (String × Val) → PyObj)
    (args : List Arg) (kwargs : List (String × Arg)) (first : STree) (others : List STree)
    (k : Nat)
    (htrees : all_tree_inputs args kwargs = first :: others)
    (hiso : checkAllIso first others = Except.ok ())
    (hwf : wfB first.tree = true)
    (hck : _check_all_return_values (resolveAll (out_data_objects f first args kwargs))
      = Except.ok k)
    (hk1 : k ≠ 1) :
    _map_over_subtree f args kwargs
      = Except.ok (Sum.inr ((List.range k).map (fun i =>
          reshapeNamed first.tree
            (fun rel => dataOfObj (outputDataFor
              (resolveAll (out_data_objects f first args kwargs)) i (first.path ++ rel)))
            first.tree.name))) := by
  unfold _map_over_subtree
  rw [htrees]
  dsimp only
  rw [hiso, hck]
  dsimp only
  have hmap : (List.range k).map (fun i => from_dict
      (out_tree_contents (resolveAll (out_data_objects f first args kwargs)) first i)
      first.tree.name)
      = (List.range k).map (fun i =>
          reshapeNamed first.tree
            (fun rel => dataOfObj (outputDataFor
              (resolveAll (out_data_objects f first args kwargs)) i (first.path ++ rel)))
            first.tree.name) := by
    refine List.map_congr_left ?_
    intro i _
    rw [out_tree_contents_eq _ _ _ (pathsOf_nodup first.tree hwf)]
    exact from_dict_preorder first.tree hwf
      (fun rel => outputDataFor
        (resolveAll (out_data_objects f first args kwargs)) i (first.path ++ rel))
      first.tree.name
  rw [hmap]
  match k, hk1 with
  | 0, _ => rfl
  | m + 2, _ =>
    rw [List.range_succ_eq_map, List.range_succ_eq_map]
    simp only [List.map_cons]

/-- A successful map call of arity 1 returns the single rebuilt tree. -/
theorem map_success_tree_one (f : List Val → List (String × Val) → PyObj)
    (args : List Arg) (kwargs : List (String × Arg)) (first : STree) (others : List STree)
    (htrees : all_tree_inputs args kwargs = first :: others)
    (hiso : checkAllIso first others = Except.ok ())
    (hwf : wfB first.tree = true)
    (hck : _check_all_return_values (resolveAll (out_data_objects f first args kwargs))
      = Except.ok 1) :
    _map_over_subtree f args kwargs
      = Except.ok (Sum.inl (reshapeNamed first.tree
          (fun rel => dataOfObj (outputDataFor
            (resolveAll (out_data_objects f first args kwargs)) 0 (first.path ++ rel)))
          first.tree.name)) := by
  unfold _map_over_subtree
  rw [htrees]
  dsimp only
  rw [hiso, hck]
  dsimp only
  have hone : List.range 1 = [0] := rfl
  rw [hone]
  simp only [List.map_cons, List.map_nil]
  have heq : from_dict
      (out_tree_contents (resolveAll (out_data_objects f first args kwargs)) first 0)
      first.tree.name
      = reshapeNamed first.tree
          (fun rel => dataOfObj (outputDataFor
            (resolveAll (out_data_objects f first args kwargs)) 0 (first.path ++ rel)))
          first.tree.name := by
    rw [out_tree_contents_eq _ _ _ (pathsOf_nodup first.tree hwf)]
    exact from_dict_preorder first.tree hwf
      (fun rel => outputDataFor
        (resolveAll (out_data_objects f first args kwargs)) 0 (first.path ++ rel))
      first.tree.name
  rw [heq]

theorem checkLoop_uniform (k : Nat) :
    ∀ (rest : List (NPath × PyObj)) (prevPath : NPath) (prevNum : Option Nat),
      (prevNum = Option.none ∨ prevNum = some k) →
      (∀ kv ∈ rest, ∃ es, kv.2 = PyObj.tup es ∧ es.all PyObj.isDataObj = true ∧ es.length = k) →
      rest ≠ [] →
      checkLoop prevPath prevNum rest = Except.ok (some k) := by
  intro rest
  induction rest with
  | nil => intro _ _ _ _ h; exact absurd rfl h
  | cons kv rest' ih =>
    intro prevPath prevNum hprev hall _
    obtain ⟨p, obj⟩ := kv
    obtain ⟨es, heq, hds, hlen⟩ := hall (p, obj) (by simp)
    have hsingle : _check_single_set_return_values p obj = Except.ok k := by
      rw [show obj = PyObj.tup es from heq]
      unfold _check_single_set_return_values
      dsimp only
      rw [if_pos hds, hlen]
    have hrec : rest' = [] ∨ checkLoop p (some k) rest' = Except.ok (some k) := by
      cases rest' with
      | nil => exact Or.inl rfl
      | cons kv2 r2 =>
        exact Or.inr (ih p (some k) (Or.inr rfl)
          (fun kv hm => hall kv (List.mem_cons_of_mem _ hm)) (by simp))
    rw [checkLoop, hsingle]
    rcases hprev with rfl | rfl
    · dsimp only
      rcases hrec with rfl | hr
      · rw [checkLoop]
      · exact hr
    · dsimp only
      rw [if_neg (show ¬(k ≠ k) from fun h => h rfl)]
      rcases hrec with rfl | hr
      · rw [checkLoop]
      · exact hr

theorem check_all_ok_of_uniform (returned : List (NPath × PyObj)) (k : Nat)
    (hne : ∃ kv ∈ returned, kv.2.isNoneObj = false)
    (hk : ∀ kv ∈ returned, kv.2.isNoneObj = true
      ∨ ∃ es, kv.2 = PyObj.tup es ∧ es.all PyObj.isDataObj = true ∧ es.length = k) :
    _check_all_return_values returned = Except.ok k := by
  unfold _check_all_return_values
  have hallf : ¬(returned.all (fun kv => kv.2.isNoneObj) = true) := by
    obtain ⟨kv, hkv, hfalse⟩ := hne
    intro hall
    have := List.all_eq_true.mp hall kv hkv
    rw [hfalse] at this
    cases this
  rw [if_neg hallf]
  have hmemf : ∀ kv ∈ returned.filter (fun kv => !kv.2.isNoneObj),
      ∃ es, kv.2 = PyObj.tup es ∧ es.all PyObj.isDataObj = true ∧ es.length = k := by
    intro kv hkv
    have hm := List.mem_filter.mp hkv
    rcases hk kv hm.1 with hnone | h
    · have := hm.2
      rw [hnone] at this
      cases this
    · exact h
  have hnonempty : returned.filter (fun kv => !kv.2.isNoneObj) ≠ [] := by
    obtain ⟨kv, hkv, hfalse⟩ := hne
    intro hnil
    have hmem : kv ∈ returned.filter (fun kv => !kv.2.isNoneObj) :=
      List.mem_filter.mpr ⟨hkv, by rw [hfalse]; rfl⟩
    rw [hnil] at hmem
    simp at hmem
  cases hfl : returned.filter (fun kv => !kv.2.isNoneObj) with
  | nil => exact absurd hfl hnonempty
  | cons kv0 rest =>
    cases rest with
    | nil =>
      obtain ⟨p, r⟩ := kv0
      obtain ⟨es, heq, hds, hlen⟩ := hmemf (p, r) (by rw [hfl]; simp)
      dsimp only
      rw [show r = PyObj.tup es from heq]
      unfold _check_single_set_return_values
      dsimp only
      rw [if_pos hds, hlen]
    | cons kv1 rest2 =>
      obtain ⟨p0, r0⟩ := kv0
      have hloop := checkLoop_uniform k (kv1 :: rest2) p0 Option.none (Or.inl rfl)
        (fun kv hm => hmemf kv (by rw [hfl]; exact List.mem_cons_of_mem _ hm)) (by simp)
      dsimp only
      rw [hloop]

mutual

/-- Same branching structure and the same name at every corresponding node
(payloads ignored). -/
def sameShapeB : DataTree → DataTree → Bool
  | .node n _ cs, .node n' _ cs' => (n == n') && sameShapeLB cs cs'

/-- Forest version of `sameShapeB`. -/
def sameShapeLB : List DataTree → List DataTree → Bool
  | [], [] => true
  | c :: r, c' :: r' => sameShapeB c c' && sameShapeLB r r'
  | _, _ => false

end

@[simp] theorem sameShapeB_node (n d cs n' d' cs') :
    sameShapeB (DataTree.node n d cs) (DataTree.node n' d' cs')
      = ((n == n') && sameShapeLB cs cs') := by
  rw [sameShapeB]

@[simp] theorem sameShapeLB_nil : sameShapeLB [] [] = true := by
  rw [sameShapeLB]

@[simp] theorem sameShapeLB_cons (c r c' r') :
    sameShapeLB (c :: r) (c' :: r') = (sameShapeB c c' && sameShapeLB r r') := by
  rw [sameShapeLB]

/-- The reshape of a tree, renamed to its own root name, has the same shape
and names as the tree. -/
theorem sameShapeB_reshape :
    ∀ t (g : NPath → Option Nat), sameShapeB (reshapeNamed t g t.name) t = true := by
  refine dt_ind (fun t => ∀ g, sameShapeB (reshapeNamed t g t.name) t = true) ?_
  intro n d cs ih g
  simp only [DataTree.name_node, reshapeNamed_node, sameShapeB_node, Bool.and_eq_true,
    beq_self_eq_true, true_and]
  induction cs with
  | nil => simp
  | cons c rest ihl =>
    simp only [reshapeL_cons, sameShapeLB_cons, Bool.and_eq_true]
    constructor
    · have := ih c (by simp) (fun p => g (c.name :: p))
      cases c with
      | node cn cd ccs => simpa using this
    · exact ihl (fun x hx => ih x (List.mem_cons_of_mem _ hx))

theorem subtreeList_keys_nodup (first : STree) (hwf : wfB first.tree = true) :
    ((subtreeList first).map Prod.fst).Nodup := by
  unfold subtreeList
  rw [preorder_shift first.tree first.path, List.map_map]
  have hcomp : (Prod.fst ∘ fun pr : NPath × DataTree => ((first.path ++ pr.1 : NPath), pr.2))
      = (fun p : NPath => first.path ++ p) ∘ Prod.fst := by
    funext pr
    rfl
  rw [hcomp, ← List.map_map]
  refine List.Nodup.map ?_ (pathsOf_nodup first.tree hwf)
  intro a b h
  exact List.append_cancel_left h

theorem all_isDataObj_map_ds (l : List Nat) :
    ((l.map PyObj.ds).all PyObj.isDataObj) = true := by
  induction l with
  | nil => rfl
  | cons x rest ih => simp [PyObj.isDataObj, ih]

theorem subtreeList_length_eq_bare (first : STree) :
    (subtreeList first).length = (preorderT [] first.tree).length := by
  rw [subtreeList_length, preorder_length]

theorem subtreeList_get (first : STree) (j : Nat) (hjL : j < (subtreeList first).length)
    (hj : j < (preorderT [] first.tree).length) :
    (subtreeList first).get ⟨j, hjL⟩
      = ((first.path ++ ((preorderT [] first.tree).get ⟨j, hj⟩).1 : NPath),
         ((preorderT [] first.tree).get ⟨j, hj⟩).2) := by
  have h2 : subtreeList first
      = (preorderT [] first.tree).map (fun pr => ((first.path ++ pr.1 : NPath), pr.2)) := by
    unfold subtreeList
    exact preorder_shift first.tree first.path
  have h3 : (subtreeList first)[j]?
      = some ((first.path ++ ((preorderT [] first.tree).get ⟨j, hj⟩).1 : NPath),
          ((preorderT [] first.tree).get ⟨j, hj⟩).2) := by
    rw [h2, List.getElem?_map, List.getElem?_eq_getElem hj]
    rfl
  have h4 : (subtreeList first)[j]? = some ((subtreeList first).get ⟨j, hjL⟩) := by
    rw [List.getElem?_eq_getElem hjL]
    rfl
  rw [h4] at h3
  exact Option.some.inj h3

/-- The recorded (and resolved) result at the `j`-th reference node: `None`
for an empty node, the raw `f` value otherwise. -/
theorem lookup_resolved_at (f : List Val → List (String × Val) → PyObj) (first : STree)
    (args : List Arg) (kwargs : List (String × Arg))
    (hN : zipLen first args kwargs = (subtreeList first).length)
    (hnd : ((subtreeList first).map Prod.fst).Nodup)
    (j : Nat) (hj : j < (preorderT [] first.tree).length) :
    List.lookup (first.path ++ ((preorderT [] first.tree).get ⟨j, hj⟩).1)
        (resolveAll (out_data_objects f first args kwargs))
      = some (if ((preorderT [] first.tree).get ⟨j, hj⟩).2.is_empty then PyObj.none
          else f (args.map (fun a => argValAt a j))
            (kwargs.map (fun kv => (kv.1, argValAt kv.2 j)))) := by
  have hjL : j < (subtreeList first).length := by
    rw [subtreeList_length_eq_bare]
    exact hj
  have hlk := lookup_out_at f first args kwargs hN hnd j hjL
  rw [subtreeList_get first j hjL hj] at hlk
  rw [resolveAll_eq, hlk]
  unfold stepResult
  rw [refAt_lt first j hjL, subtreeList_get first j hjL hj]

/-- Claim C2 (amended): if `f` returns a fixed `k`-tuple of payloads at
every invocation and the reference tree has at least one non-empty node,
the map call returns, for `k ≥ 2`, an ordered tuple of exactly `k` trees,
each of the reference tree's shape and names, the `i`-th holding the `i`-th
tuple component at every corresponding node (empty reference nodes stay
empty); for common arity `k = 1` it returns the single tree, not a 1-tuple.
(The frozen claim omits the non-emptiness proviso; an all-empty reference
tree raises the all-`None` error instead — see the counterexample.) -/
theorem C2_tuple_returns_k_trees
    (ts : List Val → List (String × Val) → List Nat) (k : Nat)
    (f : List Val → List (String × Val) → PyObj)
    (args : List Arg) (kwargs : List (String × Arg)) (first : STree) (others : List STree)
    (htrees : all_tree_inputs args kwargs = first :: others)
    (hiso : checkAllIso first others = Except.ok ())
    (hwf : wfB first.tree = true)
    (hf : ∀ vals kvals, f vals kvals = PyObj.tup ((ts vals kvals).map PyObj.ds))
    (hlen : ∀ vals kvals, (ts vals kvals).length = k)
    (hne : ∃ pr ∈ subtreeList first, pr.2.is_empty = false) :
    (2 ≤ k → ∃ L, _map_over_subtree f args kwargs = Except.ok (Sum.inr L)
      ∧ L.length = k
      ∧ ∀ i, i < k → ∃ Ti, L[i]? = some Ti
          ∧ sameShapeB Ti first.tree = true
          ∧ ∀ j (hj : j < (preorderT [] first.tree).length),
              ∃ u, nodeAtPath Ti ((preorderT [] first.tree).get ⟨j, hj⟩).1 = some u
                ∧ u.ds = (if ((preorderT [] first.tree).get ⟨j, hj⟩).2.is_empty
                    then Option.none
                    else (ts (args.map (fun a => argValAt a j))
                      (kwargs.map (fun kv => (kv.1, argValAt kv.2 j))))[i]?))
    ∧ (k = 1 → ∃ T, _map_over_subtree f args kwargs = Except.ok (Sum.inl T)
      ∧ sameShapeB T first.tree = true
      ∧ ∀ j (hj : j < (preorderT [] first.tree).length),
          ∃ u, nodeAtPath T ((preorderT [] first.tree).get ⟨j, hj⟩).1 = some u
            ∧ u.ds = (if ((preorderT [] first.tree).get ⟨j, hj⟩).2.is_empty
                then Option.none
                else (ts (args.map (fun a => argValAt a j))
                  (kwargs.map (fun kv => (kv.1, argValAt kv.2 j))))[0]?)) := by
  have hN := zipLen_eq first args kwargs others htrees hiso
  have hnd := subtreeList_keys_nodup first hwf
  have hck : _check_all_return_values (resolveAll (out_data_objects f first args kwargs))
      = Except.ok k := by
    rw [resolveAll_eq, out_data_objects_eq_stepList f first args kwargs hN hnd]
    apply check_all_ok_of_uniform
    · obtain ⟨pr, hpr, hprne⟩ := hne
      obtain ⟨j, hj, hjeq⟩ := List.getElem_of_mem hpr
      refine ⟨stepResult f first args kwargs j,
        List.mem_map_of_mem _ (List.mem_range.mpr (by omega)), ?_⟩
      unfold stepResult
      rw [refAt_lt first j hj]
      have hget : (subtreeList first).get ⟨j, hj⟩ = pr := hjeq
      rw [hget, hprne]
      simp only [Bool.false_eq_true, if_false]
      rw [hf]
      rfl
    · intro kv hkv
      rcases List.mem_map.mp hkv with ⟨i, _, rfl⟩
      unfold stepResult
      by_cases hemp : (refAt first i).2.is_empty = true
      · left
        simp [hemp, PyObj.isNoneObj]
      · right
        refine ⟨(ts (args.map (fun a => argValAt a i))
          (kwargs.map (fun kv => (kv.1, argValAt kv.2 i)))).map PyObj.ds, ?_,
          all_isDataObj_map_ds _, by simp [hlen]⟩
        simp only [hemp, if_false]
        exact hf _ _
  have hdata : ∀ i, i < k → ∀ j (hj : j < (preorderT [] first.tree).length),
      dataOfObj (outputDataFor (resolveAll (out_data_objects f first args kwargs)) i
        (first.path ++ ((preorderT [] first.tree).get ⟨j, hj⟩).1))
      = (if ((preorderT [] first.tree).get ⟨j, hj⟩).2.is_empty then Option.none
          else (ts (args.map (fun a => argValAt a j))
            (kwargs.map (fun kv => (kv.1, argValAt kv.2 j))))[i]?) := by
    intro i hi j hj
    have hlk := lookup_resolved_at f first args kwargs hN hnd j hj
    unfold outputDataFor
    rw [hlk]
    by_cases hemp : ((preorderT [] first.tree).get ⟨j, hj⟩).2.is_empty = true
    · rw [if_pos hemp, if_pos hemp]
      rfl
    · rw [if_neg hemp, if_neg hemp, hf]
      dsimp only
      have hilen : i < ((ts (args.map (fun a => argValAt a j))
          (kwargs.map (fun kv => (kv.1, argValAt kv.2 j)))).map PyObj.ds).length := by
        rw [List.length_map, hlen]
        exact hi
      rw [List.getD_eq_getElem?_getD, List.getElem?_eq_getElem hilen]
      have hilen' : i < (ts (args.map (fun a => argValAt a j))
          (kwargs.map (fun kv => (kv.1, argValAt kv.2 j)))).length := by
        rw [hlen]
        exact hi
      rw [List.getElem?_eq_getElem hilen']
      simp [dataOfObj]
  constructor
  · intro hk2
    have hk1 : k ≠ 1 := by omega
    refine ⟨_, map_success_trees_list f args kwargs first others k htrees hiso hwf hck hk1,
      by simp, ?_⟩
    intro i hi
    refine ⟨reshapeNamed first.tree
        (fun rel => dataOfObj (outputDataFor
          (resolveAll (out_data_objects f first args kwargs)) i (first.path ++ rel)))
        first.tree.name, ?_, ?_, ?_⟩
    · rw [List.getElem?_map, List.getElem?_range hi]
      rfl
    · exact sameShapeB_reshape first.tree _
    · intro j hj
      obtain ⟨u, hu1, hu2⟩ := nodeAtPath_reshape first.tree hwf
        (fun rel => dataOfObj (outputDataFor
          (resolveAll (out_data_objects f first args kwargs)) i (first.path ++ rel)))
        first.tree.name
        ((preorderT [] first.tree).get ⟨j, hj⟩).1
        ((preorderT [] first.tree).get ⟨j, hj⟩).2
        (by simp)
      exact ⟨u, hu1, by rw [hu2]; exact hdata i hi j hj⟩
  · intro hk1
    subst hk1
    refine ⟨_, map_success_tree_one f args kwargs first others htrees hiso hwf hck, ?_, ?_⟩
    · exact sameShapeB_reshape first.tree _
    · intro j hj
      obtain ⟨u, hu1, hu2⟩ := nodeAtPath_reshape first.tree hwf
        (fun rel => dataOfObj (outputDataFor
          (resolveAll (out_data_objects f first args kwargs)) 0 (first.path ++ rel)))
        first.tree.name
        ((preorderT [] first.tree).get ⟨j, hj⟩).1
        ((preorderT [] first.tree).get ⟨j, hj⟩).2
        (by simp)
      exact ⟨u, hu1, by rw [hu2]; exact hdata 0 (by omega) j hj⟩

/-- A successful map call implies the isomorphism checks passed and the
validator returned some arity. -/
theorem map_ok_arity (f : List Val → List (String × Val) → PyObj)
    (args : List Arg) (kwargs : List (String × Arg)) (first : STree) (others : List STree)
    (res : DataTree ⊕ List DataTree)
    (htrees : all_tree_inputs args kwargs = first :: others)
    (h : _map_over_subtree f args kwargs = Except.ok res) :
    checkAllIso first others = Except.ok ()
    ∧ ∃ k, _check_all_return_values (resolveAll (out_data_objects f first args kwargs))
        = Except.ok k := by
  unfold _map_over_subtree at h
  rw [htrees] at h
  dsimp only at h
  cases hciso : checkAllIso first others with
  | error e => rw [hciso] at h; cases h
  | ok u =>
    cases u
    rw [hciso] at h
    refine ⟨rfl, ?_⟩
    cases hck : _check_all_return_values (resolveAll (out_data_objects f first args kwargs)) with
    | error e => rw [hck] at h; cases h
    | ok k => exact ⟨k, rfl⟩

/-- Every tree a successful map call returns is a reshape of the reference
tree prescribed by the resolved result map at some output index. -/
theorem map_ok_tree_reshape (f : List Val → List (String × Val) → PyObj)
    (args : List Arg) (kwargs : List (String × Arg)) (first : STree) (others : List STree)
    (res : DataTree ⊕ List DataTree)
    (htrees : all_tree_inputs args kwargs = first :: others)
    (hwf : wfB first.tree = true)
    (h : _map_over_subtree f args kwargs = Except.ok res) :
    ∀ T, (res = Sum.inl T ∨ ∃ L, res = Sum.inr L ∧ T ∈ L) →
      ∃ i, T = reshapeNamed first.tree
        (fun rel => dataOfObj (outputDataFor
          (resolveAll (out_data_objects f first args kwargs)) i (first.path ++ rel)))
        first.tree.name := by
  obtain ⟨hiso, k, hck⟩ := map_ok_arity f args kwargs first others res htrees h
  by_cases hk1 : k = 1
  · subst hk1
    have hone := map_success_tree_one f args kwargs first others htrees hiso hwf hck
    rw [h] at hone
    have hres := (Except.ok.inj hone).symm
    intro T hT
    rcases hT with hT | ⟨L, hL, _⟩
    · rw [hT] at hres
      exact ⟨0, Sum.inl.inj hres.symm⟩
    · rw [hL] at hres
      cases hres
  · have hlist := map_success_trees_list f args kwargs first others k htrees hiso hwf hck hk1
    rw [h] at hlist
    have hres := (Except.ok.inj hlist).symm
    intro T hT
    rcases hT with hT | ⟨L, hL, hTL⟩
    · rw [hT] at hres
      cases hres
    · rw [hL] at hres
      have hLeq := Sum.inr.inj hres
      rw [← hLeq] at hTL
      rcases List.mem_map.mp hTL with ⟨i, _, hTi⟩
      exact ⟨i, hTi.symm⟩

theorem filterMap_ite_eq_filter_map {α β : Type} (p : α → Bool) (g : α → β) :
    ∀ l : List α, l.filterMap (fun a => if p a = true then Option.none else some (g a))
      = (l.filter (fun a => !p a)).map g := by
  intro l
  induction l with
  | nil => rfl
  | cons a rest ih =>
    by_cases h : p a = true
    · simp [List.filterMap_cons, List.filter_cons, h, ih]
    · simp [List.filterMap_cons, List.filter_cons, h, ih]

theorem invocationPaths_nodup (first : STree) (args : List Arg)
    (kwargs : List (String × Arg))
    (hN : zipLen first args kwargs = (subtreeList first).length)
    (hnd : ((subtreeList first).map Prod.fst).Nodup) :
    (invocationPaths first args kwargs).Nodup := by
  unfold invocationPaths
  rw [filterMap_ite_eq_filter_map (fun i => (refAt first i).2.is_empty)
    (fun i => (refAt first i).1)]
  refine List.Nodup.map_on ?_ ((List.nodup_range _).filter _)
  intro i hi j hj heq
  have hiN : i < (subtreeList first).length := by
    rw [← hN]
    exact List.mem_range.mp (List.mem_of_mem_filter hi)
  have hjN : j < (subtreeList first).length := by
    rw [← hN]
    exact List.mem_range.mp (List.mem_of_mem_filter hj)
  rw [refAt_lt first i hiN, refAt_lt first j hjN] at heq
  have hkeys : ((subtreeList first).map Prod.fst).get ⟨i, by simpa using hiN⟩
      = ((subtreeList first).map Prod.fst).get ⟨j, by simpa using hjN⟩ := by
    simpa using heq
  exact congrArg Fin.val ((List.Nodup.get_inj_iff hnd).mp hkeys)

theorem mem_invocationPaths (first : STree) (args : List Arg)
    (kwargs : List (String × Arg))
    (hN : zipLen first args kwargs = (subtreeList first).length)
    (hnd : ((subtreeList first).map Prod.fst).Nodup)
    (j : Nat) (hjL : j < (subtreeList first).length) :
    ((subtreeList first).get ⟨j, hjL⟩).1 ∈ invocationPaths first args kwargs
      ↔ ((subtreeList first).get ⟨j, hjL⟩).2.is_empty = false := by
  unfold invocationPaths
  constructor
  · intro hmem
    rcases List.mem_filterMap.mp hmem with ⟨i, hi, hfi⟩
    by_cases hemp : (refAt first i).2.is_empty = true
    · rw [if_pos hemp] at hfi
      cases hfi
    · rw [if_neg hemp] at hfi
      have hiN : i < (subtreeList first).length := by
        rw [← hN]
        exact List.mem_range.mp hi
      have hkey : (refAt first i).1 = ((subtreeList first).get ⟨j, hjL⟩).1 :=
        Option.some.inj hfi
      rw [refAt_lt first i hiN] at hkey hemp
      have hkeys : ((subtreeList first).map Prod.fst).get ⟨i, by simpa using hiN⟩
          = ((subtreeList first).map Prod.fst).get ⟨j, by simpa using hjL⟩ := by
        simpa using hkey
      have hij : i = j := congrArg Fin.val ((List.Nodup.get_inj_iff hnd).mp hkeys)
      subst hij
      exact Bool.not_eq_true _ ▸ (by simpa using hemp)
  · intro hne
    refine List.mem_filterMap.mpr ⟨j, List.mem_range.mpr (by omega), ?_⟩
    rw [refAt_lt first j hjL, hne]
    rfl

theorem count_eq_one_of_nodup_mem :
    ∀ (l : List NPath) (a : NPath), l.Nodup → a ∈ l → l.count a = 1 := by
  intro l
  induction l with
  | nil => intro a _ h; simp at h
  | cons x t ih =>
    intro a hnd hm
    rw [List.count_cons]
    rcases List.mem_cons.mp hm with rfl | hmt
    · have hz : t.count a = 0 := List.count_eq_zero.mpr (List.nodup_cons.mp hnd).1
      simp [hz]
    · have hne : a ≠ x := fun heq => (List.nodup_cons.mp hnd).1 (heq ▸ hmt)
      have hbeq : (x == a) = false := beq_eq_false_iff_ne.mpr (fun heq => hne heq.symm)
      rw [hbeq]
      simp [ih a (List.nodup_cons.mp hnd).2 hmt]

/-- Counterexample for claim C2 as frozen: over a reference tree with no
payload at any node, a function returning a 2-tuple at every non-empty node
(vacuously everywhere) does not yield a 2-tuple of trees — the call raises
the all-`None` error instead. -/
theorem C2_counterexample :
    _map_over_subtree (fun _ _ => PyObj.tup [PyObj.ds 0, PyObj.ds 1])
        [Arg.tree ⟨[], DataTree.node "r" Option.none []⟩] []
      = Except.error MapErr.allNoneResult
    ∧ ∀ L, _map_over_subtree (fun _ _ => PyObj.tup [PyObj.ds 0, PyObj.ds 1])
        [Arg.tree ⟨[], DataTree.node "r" Option.none []⟩] []
      ≠ Except.ok (Sum.inr L) := by
  constructor
  · rfl
  · intro L h
    rw [show _map_over_subtree (fun _ _ => PyObj.tup [PyObj.ds 0, PyObj.ds 1])
        [Arg.tree ⟨[], DataTree.node "r" Option.none []⟩] []
      = Except.error MapErr.allNoneResult from rfl] at h
    cases h

/-- Witness for C2 at `sampleTree` with a constant 2-tuple function: the
call returns exactly two trees. -/
theorem C2_tuple_returns_k_trees_witness :
    ∃ L, _map_over_subtree (fun _ _ => PyObj.tup [PyObj.ds 10, PyObj.ds 20])
        [Arg.tree sampleFirst] [] = Except.ok (Sum.inr L) ∧ L.length = 2 := by
  have h := C2_tuple_returns_k_trees (fun _ _ => [10, 20]) 2
    (fun _ _ => PyObj.tup [PyObj.ds 10, PyObj.ds 20])
    [Arg.tree sampleFirst] [] sampleFirst [] rfl rfl (by rfl)
    (fun _ _ => rfl) (fun _ _ => rfl)
    ⟨([], sampleTree), by simp [subtreeList, sampleFirst, sampleTree], rfl⟩
  obtain ⟨L, hL, hlen, _⟩ := h.1 (by omega)
  exact ⟨L, hL, hlen⟩

/-- Claim C3: at every traversal position whose reference node is empty,
`func` is not invoked and the recorded per-node result is `None`, and the
corresponding node of every output tree is empty; at every position whose
reference node has a payload, `func` is invoked exactly once and its raw
return value is recorded under that node's path. -/
theorem C3_empty_skipped_nonempty_invoked (f : List Val → List (String × Val) → PyObj)
    (args : List Arg) (kwargs : List (String × Arg)) (first : STree) (others : List STree)
    (htrees : all_tree_inputs args kwargs = first :: others)
    (hiso : checkAllIso first others = Except.ok ())
    (hwf : wfB first.tree = true) :
    ∀ j (hj : j < (preorderT [] first.tree).length),
      (((preorderT [] first.tree).get ⟨j, hj⟩).2.is_empty = true →
        List.lookup (first.path ++ ((preorderT [] first.tree).get ⟨j, hj⟩).1)
            (resolveAll (out_data_objects f first args kwargs)) = some PyObj.none
        ∧ (first.path ++ ((preorderT [] first.tree).get ⟨j, hj⟩).1)
            ∉ invocationPaths first args kwargs
        ∧ ∀ res, _map_over_subtree f args kwargs = Except.ok res →
            ∀ T, (res = Sum.inl T ∨ ∃ L, res = Sum.inr L ∧ T ∈ L) →
              ∃ u, nodeAtPath T ((preorderT [] first.tree).get ⟨j, hj⟩).1 = some u
                ∧ u.ds = Option.none)
      ∧ (((preorderT [] first.tree).get ⟨j, hj⟩).2.is_empty = false →
        List.lookup (first.path ++ ((preorderT [] first.tree).get ⟨j, hj⟩).1)
            (resolveAll (out_data_objects f first args kwargs))
          = some (f (args.map (fun a => argValAt a j))
              (kwargs.map (fun kv => (kv.1, argValAt kv.2 j))))
        ∧ (invocationPaths first args kwargs).count
            (first.path ++ ((preorderT [] first.tree).get ⟨j, hj⟩).1) = 1) := by
  have hN := zipLen_eq first args kwargs others htrees hiso
  have hnd := subtreeList_keys_nodup first hwf
  intro j hj
  have hjL : j < (subtreeList first).length := by
    rw [subtreeList_length_eq_bare]
    exact hj
  have hgetj := subtreeList_get first j hjL hj
  have hlk := lookup_resolved_at f first args kwargs hN hnd j hj
  constructor
  · intro hemp
    rw [if_pos hemp] at hlk
    refine ⟨hlk, ?_, ?_⟩
    · intro hmem
      have hkey : (first.path ++ ((preorderT [] first.tree).get ⟨j, hj⟩).1)
          = ((subtreeList first).get ⟨j, hjL⟩).1 := by
        rw [hgetj]
      rw [hkey] at hmem
      have := (mem_invocationPaths first args kwargs hN hnd j hjL).mp hmem
      rw [hgetj] at this
      simp only at this
      rw [hemp] at this
      cases this
    · intro res hres T hT
      obtain ⟨i, hTi⟩ := map_ok_tree_reshape f args kwargs first others res htrees hwf hres T hT
      obtain ⟨u, hu1, hu2⟩ := nodeAtPath_reshape first.tree hwf
        (fun rel => dataOfObj (outputDataFor
          (resolveAll (out_data_objects f first args kwargs)) i (first.path ++ rel)))
        first.tree.name
        ((preorderT [] first.tree).get ⟨j, hj⟩).1
        ((preorderT [] first.tree).get ⟨j, hj⟩).2
        (by simp)
      refine ⟨u, by rw [hTi]; exact hu1, ?_⟩
      rw [hu2]
      unfold outputDataFor
      rw [hlk]
      rfl
  · intro hne
    rw [if_neg (by rw [hne]; simp)] at hlk
    refine ⟨hlk, ?_⟩
    have hmem : (first.path ++ ((preorderT [] first.tree).get ⟨j, hj⟩).1)
        ∈ invocationPaths first args kwargs := by
      have hkey : (first.path ++ ((preorderT [] first.tree).get ⟨j, hj⟩).1)
          = ((subtreeList first).get ⟨j, hjL⟩).1 := by
        rw [hgetj]
      rw [hkey]
      refine (mem_invocationPaths first args kwargs hN hnd j hjL).mpr ?_
      rw [hgetj]
      simpa using hne
    exact count_eq_one_of_nodup_mem _ _ (invocationPaths_nodup first args kwargs hN hnd) hmem

/-- Witness for C3 at `sampleTree` (empty child `a`, payload child `b`). -/
theorem C3_empty_skipped_nonempty_invoked_witness :
    List.lookup ["a"]
        (resolveAll (out_data_objects (fun _ _ => PyObj.ds 9) sampleFirst
          [Arg.tree sampleFirst] [])) = some PyObj.none
    ∧ ["a"] ∉ invocationPaths sampleFirst [Arg.tree sampleFirst] []
    ∧ (invocationPaths sampleFirst [Arg.tree sampleFirst] []).count ["b"] = 1 := by
  have h := C3_empty_skipped_nonempty_invoked (fun _ _ => PyObj.ds 9)
    [Arg.tree sampleFirst] [] sampleFirst [] rfl rfl (by rfl)
  have ha := (h 1 (by decide)).1 (by decide)
  have hb := (h 2 (by decide)).2 (by decide)
  exact ⟨ha.1, ha.2.1, hb.2⟩

/-- Claim C9: whether `func` runs at a traversal position is decided solely
by the reference (first) tree's node there: a position belongs to the
invocation set exactly when the reference node is non-empty, and the
recorded result is `None` exactly when the reference node is empty — the
co-trees' payloads (quantified over arbitrary `args`/`kwargs`) only feed the
values `f` receives, never the decision. -/
theorem C9_reference_node_decides (f : List Val → List (String × Val) → PyObj)
    (args : List Arg) (kwargs : List (String × Arg)) (first : STree) (others : List STree)
    (htrees : all_tree_inputs args kwargs = first :: others)
    (hiso : checkAllIso first others = Except.ok ())
    (hwf : wfB first.tree = true) :
    ∀ j (hj : j < (preorderT [] first.tree).length),
      ((first.path ++ ((preorderT [] first.tree).get ⟨j, hj⟩).1)
          ∈ invocationPaths first args kwargs
        ↔ ((preorderT [] first.tree).get ⟨j, hj⟩).2.is_empty = false)
      ∧ List.lookup (first.path ++ ((preorderT [] first.tree).get ⟨j, hj⟩).1)
          (resolveAll (out_data_objects f first args kwargs))
        = some (if ((preorderT [] first.tree).get ⟨j, hj⟩).2.is_empty then PyObj.none
            else f (args.map (fun a => argValAt a j))
              (kwargs.map (fun kv => (kv.1, argValAt kv.2 j)))) := by
  have hN := zipLen_eq first args kwargs others htrees hiso
  have hnd := subtreeList_keys_nodup first hwf
  intro j hj
  have hjL : j < (subtreeList first).length := by
    rw [subtreeList_length_eq_bare]
    exact hj
  have hgetj := subtreeList_get first j hjL hj
  constructor
  · have hmem := mem_invocationPaths first args kwargs hN hnd j hjL
    rw [hgetj] at hmem
    exact hmem
  · exact lookup_resolved_at f first args kwargs hN hnd j hj

/-- A co-tree isomorphic to `sampleTree` whose every node holds a payload. -/
def coFull : STree :=
  ⟨[], DataTree.node "x" (some 5) [DataTree.node "y" (some 6) [], DataTree.node "z" (some 7) []]⟩

/-- A co-tree isomorphic to `sampleTree` with no payload anywhere. -/
def coEmpty : STree :=
  ⟨[], DataTree.node "x" Option.none
    [DataTree.node "y" Option.none [], DataTree.node "z" Option.none []]⟩

/-- Witness for C9: the empty reference child `a` is skipped even though the
fully-loaded co-tree holds a payload at that position, and the non-empty
reference root is invoked even though the all-empty co-tree has nothing
there. -/
theorem C9_reference_node_decides_witness :
    ["a"] ∉ invocationPaths sampleFirst [Arg.tree sampleFirst, Arg.tree coFull] []
    ∧ ([] : NPath) ∈ invocationPaths sampleFirst [Arg.tree sampleFirst, Arg.tree coEmpty] [] := by
  constructor
  · have h := C9_reference_node_decides (fun _ _ => PyObj.ds 0)
      [Arg.tree sampleFirst, Arg.tree coFull] [] sampleFirst [coFull] rfl
      (by simp [checkAllIso, check_isomorphic_sub, diff_treestructure, diffPairs,
        sampleFirst, sampleTree, coFull])
      (by rfl)
    intro hmem
    have := (h 1 (by decide)).1.mp hmem
    exact absurd this (by decide)
  · have h := C9_reference_node_decides (fun _ _ => PyObj.ds 0)
      [Arg.tree sampleFirst, Arg.tree coEmpty] [] sampleFirst [coEmpty] rfl
      (by simp [checkAllIso, check_isomorphic_sub, diff_treestructure, diffPairs,
        sampleFirst, sampleTree, coEmpty])
      (by rfl)
    exact (h 0 (by decide)).1.mpr (by decide)

/-- Erase a tree argument's ancestry path, keeping its subtree; leave any
other argument unchanged. -/
def rebase : Arg → Arg
  | .tree t => .tree ⟨[], t.tree⟩
  | .scalar v => .scalar v

theorem subtreeList_rebase (t : STree) :
    subtreeList ⟨[], t.tree⟩ = preorderT [] t.tree := rfl

theorem subtreeList_shift (t : STree) :
    subtreeList t = (preorderT [] t.tree).map (fun pr => ((t.path ++ pr.1 : NPath), pr.2)) := by
  unfold subtreeList
  exact preorder_shift t.tree t.path

theorem argValAt_rebase (a : Arg) (i : Nat) : argValAt (rebase a) i = argValAt a i := by
  cases a with
  | scalar v => rfl
  | tree t =>
    show argValAt (Arg.tree ⟨[], t.tree⟩) i = argValAt (Arg.tree t) i
    unfold argValAt
    dsimp only
    rw [subtreeList_rebase, subtreeList_shift t, List.getElem?_map]
    cases hopt : (preorderT [] t.tree)[i]? with
    | none => rfl
    | some pr => rfl

theorem refAt_rebase_snd (first : STree) (i : Nat) :
    (refAt ⟨[], first.tree⟩ i).2 = (refAt first i).2 := by
  unfold refAt
  rw [subtreeList_rebase, subtreeList_shift first, List.getElem?_map]
  cases hopt : (preorderT [] first.tree)[i]? with
  | none => rfl
  | some pr => rfl

theorem argLen_rebase (L : Nat) (a : Arg) : argLen L (rebase a) = argLen L a := by
  cases a with
  | scalar v => rfl
  | tree t =>
    show (subtreeList (⟨[], t.tree⟩ : STree)).length = (subtreeList t).length
    rw [subtreeList_rebase, subtreeList_length, preorder_length]

theorem zipLen_rebase (first : STree) (args : List Arg) (kwargs : List (String × Arg)) :
    zipLen ⟨[], first.tree⟩ (args.map rebase) (kwargs.map (fun kv => (kv.1, rebase kv.2)))
      = zipLen first args kwargs := by
  unfold zipLen
  have hL : (subtreeList (⟨[], first.tree⟩ : STree)).length = (subtreeList first).length := by
    rw [subtreeList_rebase, subtreeList_length, preorder_length]
  rw [hL]
  have h1 : (args.map rebase).map (argLen (subtreeList first).length)
      = args.map (argLen (subtreeList first).length) := by
    rw [List.map_map]
    exact List.map_congr_left fun a _ => argLen_rebase _ a
  have h2 : (kwargs.map (fun kv => (kv.1, rebase kv.2))).map
        (fun kv => argLen (subtreeList first).length kv.2)
      = kwargs.map (fun kv => argLen (subtreeList first).length kv.2) := by
    rw [List.map_map]
    exact List.map_congr_left fun kv _ => argLen_rebase _ kv.2
  rw [h1, h2]

theorem stepResult_snd_rebase (f : List Val → List (String × Val) → PyObj)
    (first : STree) (args : List Arg) (kwargs : List (String × Arg)) (i : Nat) :
    (stepResult f ⟨[], first.tree⟩ (args.map rebase)
        (kwargs.map (fun kv => (kv.1, rebase kv.2))) i).2
      = (stepResult f first args kwargs i).2 := by
  unfold stepResult
  rw [refAt_rebase_snd]
  have hargs : (args.map rebase).map (fun a => argValAt a i)
      = args.map (fun a => argValAt a i) := by
    rw [List.map_map]
    exact List.map_congr_left fun a _ => argValAt_rebase a i
  have hkw : (kwargs.map (fun kv => (kv.1, rebase kv.2))).map
        (fun kv => (kv.1, argValAt kv.2 i))
      = kwargs.map (fun kv => (kv.1, argValAt kv.2 i)) := by
    rw [List.map_map]
    refine List.map_congr_left fun kv _ => ?_
    show (kv.1, argValAt (rebase kv.2) i) = (kv.1, argValAt kv.2 i)
    rw [argValAt_rebase]
  rw [hargs, hkw]

theorem all_tree_inputs_rebase (args : List Arg) (kwargs : List (String × Arg)) :
    all_tree_inputs (args.map rebase) (kwargs.map (fun kv => (kv.1, rebase kv.2)))
      = (all_tree_inputs args kwargs).map (fun t => (⟨[], t.tree⟩ : STree)) := by
  unfold all_tree_inputs
  rw [List.map_append]
  congr 1
  · rw [List.filterMap_map, List.map_filterMap]
    refine List.filterMap_congr ?_
    intro a _
    cases a with
    | tree t => rfl
    | scalar v => rfl
  · rw [List.filterMap_map, List.map_filterMap]
    refine List.filterMap_congr ?_
    intro kv _
    cases hkv : kv.2 with
    | tree t => show ((kv.1, rebase kv.2).2.treeOpt) = _; rw [hkv]; rfl
    | scalar v => show ((kv.1, rebase kv.2).2.treeOpt) = _; rw [hkv]; rfl

theorem checkAllIso_ok_of_iso (first : STree) :
    ∀ others, (∀ o ∈ others, Iso false first.tree o.tree) →
      checkAllIso first others = Except.ok () := by
  intro others
  induction others with
  | nil => intro _; rfl
  | cons o rest ih =>
    intro h
    rw [checkAllIso]
    rw [(check_isomorphic_sub_ok_iff _ _ _ _ _).mpr (h o (by simp))]
    exact ih (fun x hx => h x (List.mem_cons_of_mem _ hx))

theorem check_single_ok_iff (p p' : NPath) (obj : PyObj) (k : Nat) :
    _check_single_set_return_values p obj = Except.ok k
      ↔ _check_single_set_return_values p' obj = Except.ok k := by
  cases obj with
  | none => simp [_check_single_set_return_values]
  | ds d => simp [_check_single_set_return_values]
  | other => simp [_check_single_set_return_values]
  | tup es =>
    unfold _check_single_set_return_values
    dsimp only
    by_cases h : es.all PyObj.isDataObj = true
    · rw [if_pos h, if_pos h]
    · rw [if_neg h, if_neg h]
      simp

theorem checkLoop_ok_of_snd_eq :
    ∀ (l l' : List (NPath × PyObj)), l.map Prod.snd = l'.map Prod.snd →
      ∀ (pp pp' : NPath) (pn : Option Nat) (r : Option Nat),
        checkLoop pp pn l = Except.ok r → checkLoop pp' pn l' = Except.ok r := by
  intro l
  induction l with
  | nil =>
    intro l' hml pp pp' pn r h
    have hl' : l' = [] := by
      cases l' with
      | nil => rfl
      | cons x t => simp at hml
    subst hl'
    rw [checkLoop] at h ⊢
    exact h
  | cons kv rest ih =>
    intro l' hml pp pp' pn r h
    cases l' with
    | nil => simp at hml
    | cons kv' rest' =>
      simp only [List.map_cons, List.cons.injEq] at hml
      obtain ⟨hv, hrest⟩ := hml
      obtain ⟨p, obj⟩ := kv
      obtain ⟨p', obj'⟩ := kv'
      have hobj : obj' = obj := by simpa using hv.symm
      rw [hobj]
      rw [checkLoop] at h ⊢
      cases hs : _check_single_set_return_values p obj with
      | error e =>
        rw [hs] at h
        cases h
      | ok n =>
        rw [hs] at h
        rw [(check_single_ok_iff p p' obj n).mp hs]
        cases pn with
        | none =>
          dsimp only at h ⊢
          exact ih rest' hrest p p' (some n) r h
        | some pnv =>
          dsimp only at h ⊢
          by_cases hnp : n ≠ pnv
          · rw [if_pos hnp] at h
            cases h
          · rw [if_neg hnp] at h ⊢
            exact ih rest' hrest p p' (some n) r h

theorem map_snd_filter_snd (q : PyObj → Bool) :
    ∀ (l : List (NPath × PyObj)),
      (l.filter (fun kv => q kv.2)).map Prod.snd = (l.map Prod.snd).filter q := by
  intro l
  induction l with
  | nil => rfl
  | cons kv rest ih =>
    by_cases h : q kv.2 = true
    · simp [List.filter_cons, h, ih]
    · simp [List.filter_cons, h, ih]

theorem check_all_ok_of_snd_eq (l l' : List (NPath × PyObj))
    (hml : l.map Prod.snd = l'.map Prod.snd) (k : Nat)
    (h : _check_all_return_values l = Except.ok k) :
    _check_all_return_values l' = Except.ok k := by
  unfold _check_all_return_values at h ⊢
  have hmap : ∀ (m : List (NPath × PyObj)),
      m.all (fun kv => kv.2.isNoneObj) = (m.map Prod.snd).all PyObj.isNoneObj := by
    intro m
    induction m with
    | nil => rfl
    | cons a t ih => simp [ih]
  have hall : l'.all (fun kv => kv.2.isNoneObj) = l.all (fun kv => kv.2.isNoneObj) := by
    rw [hmap, hmap, hml]
  by_cases hcond : l.all (fun kv => kv.2.isNoneObj) = true
  · rw [if_pos hcond] at h
    cases h
  · rw [if_neg hcond] at h
    rw [if_neg (by rw [hall]; exact hcond)]
    have hfm : (l.filter (fun kv => !kv.2.isNoneObj)).map Prod.snd
        = (l'.filter (fun kv => !kv.2.isNoneObj)).map Prod.snd := by
      rw [map_snd_filter_snd (fun v => !v.isNoneObj) l,
        map_snd_filter_snd (fun v => !v.isNoneObj) l', hml]
    cases hfl : l.filter (fun kv => !kv.2.isNoneObj) with
    | nil =>
      rw [hfl] at h
      cases h
    | cons kv0 rest =>
      rw [hfl] at h hfm
      cases hfl' : l'.filter (fun kv => !kv.2.isNoneObj) with
      | nil =>
        rw [hfl'] at hfm
        simp at hfm
      | cons kv0' rest' =>
        rw [hfl'] at hfm
        simp only [List.map_cons, List.cons.injEq] at hfm
        obtain ⟨hv0, hrest0⟩ := hfm
        obtain ⟨p0, r0⟩ := kv0
        obtain ⟨p0', r0'⟩ := kv0'
        have hr0 : r0' = r0 := by simpa using hv0.symm
        rw [hr0]
        cases rest with
        | nil =>
          cases rest' with
          | nil =>
            dsimp only at h ⊢
            exact (check_single_ok_iff p0 p0' r0 k).mp h
          | cons x t => simp at hrest0
        | cons kv1 rest2 =>
          cases rest' with
          | nil => simp at hrest0
          | cons kv1' rest2' =>
            dsimp only at h ⊢
            cases hcl : checkLoop p0 Option.none (kv1 :: rest2) with
            | error e =>
              rw [hcl] at h
              cases h
            | ok ov =>
              rw [hcl] at h
              have hcl2 := checkLoop_ok_of_snd_eq (kv1 :: rest2) (kv1' :: rest2')
                hrest0 p0 p0' Option.none ov hcl
              rw [hcl2]
              cases ov with
              | none => exact h
              | some n => exact h

/-- Reshapes agree when the payload functions agree on every relative
preorder path of the tree. -/
theorem reshapeNamed_congr :
    ∀ (t : DataTree) (g g' : NPath → Option Nat),
      (∀ p ∈ (preorderT [] t).map Prod.fst, g p = g' p) →
      ∀ nm, reshapeNamed t g nm = reshapeNamed t g' nm := by
  refine dt_ind (fun t => ∀ (g g' : NPath → Option Nat),
    (∀ p ∈ (preorderT [] t).map Prod.fst, g p = g' p) →
    ∀ nm, reshapeNamed t g nm = reshapeNamed t g' nm) ?_
  intro n d cs ihc g g' hg nm
  have key : ∀ (cs' : List DataTree),
      (∀ c ∈ cs', ∀ (g g' : NPath → Option Nat),
        (∀ p ∈ (preorderT [] c).map Prod.fst, g p = g' p) →
        ∀ nm, reshapeNamed c g nm = reshapeNamed c g' nm) →
      ∀ (g g' : NPath → Option Nat),
        (∀ p ∈ (preorderL [] cs').map Prod.fst, g p = g' p) →
        reshapeL cs' g = reshapeL cs' g' := by
    intro cs'
    induction cs' with
    | nil =>
      intro _ g g' _
      simp
    | cons c rest ih =>
      intro hmem g g' hagree
      simp only [reshapeL_cons]
      congr 1
      · refine hmem c (by simp) _ _ ?_ c.name
        intro p hp
        refine hagree (c.name :: p) ?_
        simp only [preorderL_cons, List.map_append, List.mem_append, List.nil_append]
        left
        rw [preorder_shift c [c.name], List.map_map]
        rcases List.mem_map.mp hp with ⟨pr, hpr, rfl⟩
        exact List.mem_map.mpr ⟨pr, hpr, rfl⟩
      · refine ih (fun x hx => hmem x (List.mem_cons_of_mem _ hx)) g g' ?_
        intro p hp
        refine hagree p ?_
        simp only [preorderL_cons, List.map_append, List.mem_append]
        right
        exact hp
  simp only [reshapeNamed_node]
  congr 1
  · exact hg [] (by simp)
  · refine key cs ihc g g' ?_
    intro p hp
    refine hg p ?_
    simp only [preorderT_node, List.map_cons, List.mem_cons]
    right
    exact hp

theorem reshapeNamed_name (t : DataTree) (g : NPath → Option Nat) (nm : String) :
    (reshapeNamed t g nm).name = nm := by
  cases t with
  | node n d cs => simp

theorem argsVals_rebase (args : List Arg) (i : Nat) :
    (args.map rebase).map (fun a => argValAt a i) = args.map (fun a => argValAt a i) := by
  rw [List.map_map]
  exact List.map_congr_left fun a _ => argValAt_rebase a i

theorem kwargsVals_rebase (kwargs : List (String × Arg)) (i : Nat) :
    (kwargs.map (fun kv => (kv.1, rebase kv.2))).map (fun kv => (kv.1, argValAt kv.2 i))
      = kwargs.map (fun kv => (kv.1, argValAt kv.2 i)) := by
  rw [List.map_map]
  refine List.map_congr_left fun kv _ => ?_
  show (kv.1, argValAt (rebase kv.2) i) = (kv.1, argValAt kv.2 i)
  rw [argValAt_rebase]

/-- Claim C5: in every successful map call the rebuild dictionaries of every
output index carry exactly the reference tree's preorder paths relativised
to the reference tree's own path (no trace of its ancestry remains), the
reference node's own relative path renders as the canonical root marker
`"/"`, erasing the ancestry of every tree argument leaves the call's result
unchanged, and every returned tree (single or tuple member) carries the
reference tree's name. -/
theorem C5_relativisation (f : List Val → List (String × Val) → PyObj)
    (args : List Arg) (kwargs : List (String × Arg)) (first : STree) (others : List STree)
    (res : DataTree ⊕ List DataTree)
    (htrees : all_tree_inputs args kwargs = first :: others)
    (hwf : wfB first.tree = true)
    (hok : _map_over_subtree f args kwargs = Except.ok res) :
    (∀ i : Nat, (out_tree_contents (resolveAll (out_data_objects f first args kwargs))
        first i).map Prod.fst = (preorderT [] first.tree).map Prod.fst)
    ∧ renderPath (relative_to first.path first.path) = "/"
    ∧ _map_over_subtree f (args.map rebase) (kwargs.map fun kv => (kv.1, rebase kv.2))
        = Except.ok res
    ∧ (∀ t, res = Sum.inl t → t.name = first.tree.name)
    ∧ (∀ ts, res = Sum.inr ts → ∀ t ∈ ts, t.name = first.tree.name) := by
  have hndb := pathsOf_nodup first.tree hwf
  have hinv : checkAllIso first others = Except.ok ()
      ∧ ∃ k, _check_all_return_values (resolveAll (out_data_objects f first args kwargs))
          = Except.ok k := by
    have h := hok
    unfold _map_over_subtree at h
    rw [htrees] at h
    dsimp only at h
    cases hiso : checkAllIso first others with
    | error e =>
      rw [hiso] at h
      simp at h
    | ok u =>
      cases u
      rw [hiso] at h
      dsimp only at h
      cases hck : _check_all_return_values
          (resolveAll (out_data_objects f first args kwargs)) with
      | error e =>
        rw [hck] at h
        simp at h
      | ok k => exact ⟨rfl, k, rfl⟩
  obtain ⟨hiso, k, hck⟩ := hinv
  have hN := zipLen_eq first args kwargs others htrees hiso
  have hnd := subtreeList_keys_nodup first hwf
  have htrees' : all_tree_inputs (args.map rebase) (kwargs.map fun kv => (kv.1, rebase kv.2))
      = (⟨[], first.tree⟩ : STree) :: others.map (fun t => (⟨[], t.tree⟩ : STree)) := by
    rw [all_tree_inputs_rebase, htrees]
    rfl
  have hiso' : checkAllIso ⟨[], first.tree⟩ (others.map (fun t => (⟨[], t.tree⟩ : STree)))
      = Except.ok () := by
    apply checkAllIso_ok_of_iso
    intro o ho
    rcases List.mem_map.mp ho with ⟨t, ht, rfl⟩
    exact checkAllIso_ok_iso first others hiso t ht
  have hlen' : (subtreeList (⟨[], first.tree⟩ : STree)).length = (subtreeList first).length := by
    rw [subtreeList_length, subtreeList_length]
  have hN' : zipLen ⟨[], first.tree⟩ (args.map rebase) (kwargs.map fun kv => (kv.1, rebase kv.2))
      = (subtreeList (⟨[], first.tree⟩ : STree)).length := by
    rw [zipLen_rebase, hN, hlen']
  have hnd' : ((subtreeList (⟨[], first.tree⟩ : STree)).map Prod.fst).Nodup :=
    subtreeList_keys_nodup ⟨[], first.tree⟩ hwf
  have hsnd : (out_data_objects f ⟨[], first.tree⟩ (args.map rebase)
        (kwargs.map fun kv => (kv.1, rebase kv.2))).map Prod.snd
      = (out_data_objects f first args kwargs).map Prod.snd := by
    rw [out_data_objects_eq_stepList f ⟨[], first.tree⟩ (args.map rebase)
        (kwargs.map fun kv => (kv.1, rebase kv.2)) hN' hnd',
      out_data_objects_eq_stepList f first args kwargs hN hnd,
      zipLen_rebase, List.map_map, List.map_map]
    refine List.map_congr_left ?_
    intro i _
    exact stepResult_snd_rebase f first args kwargs i
  have hck' : _check_all_return_values (resolveAll (out_data_objects f ⟨[], first.tree⟩
        (args.map rebase) (kwargs.map fun kv => (kv.1, rebase kv.2)))) = Except.ok k := by
    rw [resolveAll_eq]
    rw [resolveAll_eq] at hck
    exact check_all_ok_of_snd_eq (out_data_objects f first args kwargs) _ hsnd.symm k hck
  have htree_eq : ∀ i : Nat,
      reshapeNamed first.tree
        (fun rel => dataOfObj (outputDataFor (resolveAll (out_data_objects f ⟨[], first.tree⟩
          (args.map rebase) (kwargs.map fun kv => (kv.1, rebase kv.2)))) i rel))
        first.tree.name
      = reshapeNamed first.tree
        (fun rel => dataOfObj (outputDataFor (resolveAll (out_data_objects f first args kwargs))
          i (first.path ++ rel)))
        first.tree.name := by
    intro i
    apply reshapeNamed_congr
    intro p hp
    rcases List.mem_map.mp hp with ⟨pr, hpr, rfl⟩
    rcases List.mem_iff_get.mp hpr with ⟨⟨j, hj⟩, hget⟩
    subst hget
    have hlkA := lookup_resolved_at f first args kwargs hN hnd j hj
    have hlkB0 := lookup_resolved_at f ⟨[], first.tree⟩ (args.map rebase)
      (kwargs.map fun kv => (kv.1, rebase kv.2)) hN' hnd' j hj
    simp only [List.nil_append] at hlkB0
    have hOD : outputDataFor (resolveAll (out_data_objects f ⟨[], first.tree⟩ (args.map rebase)
          (kwargs.map fun kv => (kv.1, rebase kv.2)))) i
          ((preorderT [] first.tree).get ⟨j, hj⟩).1
        = outputDataFor (resolveAll (out_data_objects f first args kwargs)) i
          (first.path ++ ((preorderT [] first.tree).get ⟨j, hj⟩).1) := by
      unfold outputDataFor
      rw [hlkA, hlkB0]
      by_cases hemp : ((preorderT [] first.tree).get ⟨j, hj⟩).2.is_empty = true
      · rw [if_pos hemp, if_pos hemp]
      · rw [if_neg hemp, if_neg hemp, argsVals_rebase args j, kwargsVals_rebase kwargs j]
    exact congrArg dataOfObj hOD
  refine ⟨?_, ?_, ?_⟩
  · intro i
    rw [out_tree_contents_eq (resolveAll (out_data_objects f first args kwargs)) first i hndb,
      List.map_map]
    rfl
  · have hrel : relative_to first.path first.path = ([] : NPath) := by
      unfold relative_to
      have hp : first.path.isPrefixOf first.path = true := by
        have h0 := isPrefixOf_append_self first.path []
        rw [List.append_nil] at h0
        exact h0
      rw [if_pos hp, List.drop_length]
    rw [hrel]
    rfl
  · by_cases hk1 : k = 1
    · subst hk1
      have hB := map_success_tree_one f args kwargs first others htrees hiso hwf hck
      have hA := map_success_tree_one f (args.map rebase)
        (kwargs.map fun kv => (kv.1, rebase kv.2)) ⟨[], first.tree⟩
        (others.map (fun t => (⟨[], t.tree⟩ : STree))) htrees' hiso' hwf hck'
      have hres : Sum.inl (reshapeNamed first.tree
          (fun rel => dataOfObj (outputDataFor
            (resolveAll (out_data_objects f first args kwargs)) 0 (first.path ++ rel)))
          first.tree.name) = res := Except.ok.inj (hB.symm.trans hok)
      refine ⟨?_, ?_, ?_⟩
      · rw [hA, ← hres]
        exact congrArg (fun t => (Except.ok (Sum.inl t)
          : Except MapErr (DataTree ⊕ List DataTree))) (htree_eq 0)
      · intro t ht
        have h2 := Sum.inl.inj (hres.trans ht)
        rw [← h2]
        exact reshapeNamed_name first.tree _ first.tree.name
      · intro ts hts
        exact absurd (hres.trans hts) (by simp)
    · have hB := map_success_trees_list f args kwargs first others k htrees hiso hwf hck hk1
      have hA := map_success_trees_list f (args.map rebase)
        (kwargs.map fun kv => (kv.1, rebase kv.2)) ⟨[], first.tree⟩
        (others.map (fun t => (⟨[], t.tree⟩ : STree))) k htrees' hiso' hwf hck' hk1
      have hres : Sum.inr ((List.range k).map (fun i => reshapeNamed first.tree
          (fun rel => dataOfObj (outputDataFor
            (resolveAll (out_data_objects f first args kwargs)) i (first.path ++ rel)))
          first.tree.name)) = res := Except.ok.inj (hB.symm.trans hok)
      refine ⟨?_, ?_, ?_⟩
      · rw [hA, ← hres]
        refine congrArg (fun l => (Except.ok (Sum.inr l)
          : Except MapErr (DataTree ⊕ List DataTree))) (List.map_congr_left ?_)
        intro i _
        exact htree_eq i
      · intro t ht
        exact absurd (hres.trans ht) (by simp)
      · intro ts hts t htm
        have h2 := Sum.inr.inj (hres.trans hts)
        rw [← h2] at htm
        rcases List.mem_map.mp htm with ⟨i, _, rfl⟩
        exact reshapeNamed_name first.tree _ first.tree.name

/-- Witness for C5: mapping a constant-payload function over the sample tree
hanging below the ancestry path `anc/estry` succeeds, the same call with the
ancestry erased returns the identical result, the reference root's relative
path renders as `"/"`, and the returned tree keeps the reference name `r`. -/
theorem C5_relativisation_witness :
    ∃ res, _map_over_subtree (fun _ _ => PyObj.ds 3)
        [Arg.tree ⟨["anc", "estry"], sampleTree⟩] [] = Except.ok res
      ∧ _map_over_subtree (fun _ _ => PyObj.ds 3) [Arg.tree ⟨[], sampleTree⟩] []
          = Except.ok res
      ∧ renderPath (relative_to ["anc", "estry"] ["anc", "estry"]) = "/"
      ∧ ∀ t, res = Sum.inl t → t.name = "r" := by
  have hck : _check_all_return_values (resolveAll (out_data_objects
      (fun _ _ => PyObj.ds 3) ⟨["anc", "estry"], sampleTree⟩
      [Arg.tree ⟨["anc", "estry"], sampleTree⟩] [])) = Except.ok 1 := by rfl
  have hok := map_success_tree_one (fun _ _ => PyObj.ds 3)
    [Arg.tree ⟨["anc", "estry"], sampleTree⟩] [] ⟨["anc", "estry"], sampleTree⟩ []
    rfl rfl (by rfl) hck
  have h := C5_relativisation (fun _ _ => PyObj.ds 3)
    [Arg.tree ⟨["anc", "estry"], sampleTree⟩] [] ⟨["anc", "estry"], sampleTree⟩ [] _
    rfl (by rfl) hok
  refine ⟨_, hok, ?_, h.2.1, ?_⟩
  · exact h.2.2.1
  · intro t ht
    exact h.2.2.2.1 t ht

end DatatreeMapping

